import Mathlib

/-!
# Verification of the owl_patch audio data path

Shallow embedding of the sample-buffer / conversion / resynthesis core of the
`owl_patch` repository, together with proofs settling the specification claims.

Modelling conventions:
* Rust slices and `Vec`s become `List`s; machine integers become `Nat`/`Int`
  with explicit `% 2 ^ 32` where `u32` wrapping matters.
* A Rust function that can panic is modelled as an `Option`-returning function,
  `none` marking the panic.
* `f32` values produced by exact power-of-two scalings of integers are modelled
  by exact integer arithmetic: the only rounding step in the i32 ↔ f32
  conversion chain is the initial `v as f32` cast, which is round-to-nearest,
  ties-to-even at 24 significand bits; both multiplications (by `1/2^31` and by
  `2^31`) are exact in IEEE binary32 for the magnitudes involved.
* Sample arithmetic inside the resynthesis engine is modelled over `ℚ`; the
  claims proved about the engine (silence, scheduling, index bounds) do not
  depend on rounding of `f32` arithmetic, only on `0 * x = 0` and `0 + 0 = 0`.
-/

/-! ## Scalar sample conversion (src/sample_buffer.rs lines 57-83,
    src/sample_buffer/convert.rs)

`impl ConvertInto<f32> for i32` computes `self as f32 * (1.0 / 0x80000000 as f32)`
and `impl ConvertInto<i32> for f32` computes `(self * 0x80000000 as f32) as i32`.
`1.0 / 2^31` and `2^31` are exact binary32 values, and multiplying a binary32
number by an exact power of two is exact (no significand bits are produced or
lost; no overflow/underflow occurs for inputs coming from the i32 range).
Hence the composite i32 → f32 → i32 map equals: round `v` to the nearest
binary32-representable integer (ties to even), truncate toward zero (a no-op on
an integer value) and saturate into the i32 range, exactly as Rust's `as i32`
cast does. -/

/-- Exponent of the binary32 quantum (ulp) for a magnitude `n` in the i32 range:
values in `(2^24, 2^25]` are rounded to multiples of `2^1`, ..., values in
`(2^30, 2^31]` to multiples of `2^7`.  Only meaningful for `2^24 < n ≤ 2^31`. -/
def f32ulpExp (n : ℕ) : ℕ :=
  if n ≤ 2 ^ 25 then 1
  else if n ≤ 2 ^ 26 then 2
  else if n ≤ 2 ^ 27 then 3
  else if n ≤ 2 ^ 28 then 4
  else if n ≤ 2 ^ 29 then 5
  else if n ≤ 2 ^ 30 then 6
  else 7

/-- Round a magnitude `2^24 < n ≤ 2^31` to the nearest multiple of its
binary32 quantum `2 ^ f32ulpExp n`, ties to the even multiple. -/
def roundMag (n : ℕ) : ℕ :=
  if 2 ^ (f32ulpExp n - 1) < n % 2 ^ f32ulpExp n ∨
      (n % 2 ^ f32ulpExp n = 2 ^ (f32ulpExp n - 1) ∧ (n / 2 ^ f32ulpExp n) % 2 = 1)
  then (n / 2 ^ f32ulpExp n + 1) * 2 ^ f32ulpExp n
  else (n / 2 ^ f32ulpExp n) * 2 ^ f32ulpExp n

/-- Round an integer in the i32 range to the nearest binary32-representable
value (round to nearest, ties to even).  This is the exact value of Rust's
`v as f32` for `|v| ≤ 2^31`. -/
def rnd24 (v : ℤ) : ℤ :=
  if v.natAbs ≤ 2 ^ 24 then v
  else if v < 0 then -(roundMag v.natAbs : ℤ) else (roundMag v.natAbs : ℤ)

/-- The composite `i32 → f32 → i32` round trip of
`ConvertInto<f32> for i32` followed by `ConvertInto<i32> for f32`:
round to binary32, truncate (no-op on an integer value), saturate to i32. -/
def i32RoundTrip (v : ℤ) : ℤ :=
  max (-(2 ^ 31)) (min (2 ^ 31 - 1) (rnd24 v))

/-! The i16 conversions scale by `1 / i16::MAX = 1 / 32767`, which is not a
power of two, so all three binary32 roundings matter: the compile-time
rounding of the constant `MUL`, and the rounding of each product.  They are
modelled exactly by a general round-to-nearest-binary32 function on `ℚ`
(no overflow or subnormals occur at the magnitudes involved, so rounding at
24 significand bits at the value's binade is the entire story). -/

/-- Round-to-nearest-integer, ties to the even integer, on `ℚ`. -/
def rte (m : ℚ) : ℤ :=
  if m - ⌊m⌋ < 1 / 2 then ⌊m⌋
  else if 1 / 2 < m - ⌊m⌋ then ⌊m⌋ + 1
  else if ⌊m⌋ % 2 = 0 then ⌊m⌋ else ⌊m⌋ + 1

/-- Round a rational to the nearest binary32 value (round to nearest, ties to
even, 24-bit significand, quantum `2 ^ (e - 23)` at binade
`2 ^ e ≤ |x| < 2 ^ (e + 1)`). -/
def rndF32 (x : ℚ) : ℚ :=
  if x = 0 then 0
  else (rte (x / 2 ^ (Int.log 2 |x| - 23)) : ℚ) * 2 ^ (Int.log 2 |x| - 23)

/-- `const MUL: f32 = 1.0 / i16::MAX as f32` of `ConvertFrom<i16> for f32`
(src/sample_buffer/convert.rs line 48): the correctly rounded binary32
quotient `1 / 32767` (the cast `i16::MAX as f32` is exact). -/
def MUL16 : ℚ := rndF32 (1 / 32767)

/-- `ConvertFrom<i16> for f32` (convert.rs lines 45-51): `other as f32 * MUL`;
the cast of an i16 to f32 is exact, the product rounds. -/
def i16ToF32 (v : ℤ) : ℚ := rndF32 ((v : ℚ) * MUL16)

/-- Rust float-to-integer `as` truncation toward zero (the saturation is at
the target type's bounds, applied by the caller below). -/
def truncQ (x : ℚ) : ℤ := if 0 ≤ x then ⌊x⌋ else ⌈x⌉

/-- `ConvertFrom<f32> for i16` (convert.rs lines 53-59): `(other * MUL) as i16`
with `MUL = i16::MAX as f32 = 32767.0` exact; the product rounds, the `as i16`
cast truncates toward zero and saturates to the i16 range. -/
def f32ToI16 (x : ℚ) : ℤ :=
  max (-(2 ^ 15)) (min (2 ^ 15 - 1) (truncQ (rndF32 (x * 32767))))

/-- The composite `i16 → f32 → i16` round trip. -/
def i16RoundTrip (v : ℤ) : ℤ := f32ToI16 (i16ToF32 v)

/-! ## The sample buffer (src/sample_buffer.rs)

`Buffer<S, C>` stores a flat run of samples plus channel count and blocksize;
the storage pattern `S` only determines how the flat run is addressed, so a
single structure models all three patterns. -/

/-- `Buffer` from src/sample_buffer.rs: flat sample storage with channel count
and blocksize. -/
structure Buffer (F : Type) where
  samples : List F
  channels : ℕ
  blocksize : ℕ
deriving Repr, DecidableEq

/-- `Buffer::new` (allocates `channels * blocksize` default-valued samples). -/
def Buffer.new (F : Type) [Inhabited F] (channels blocksize : ℕ) : Buffer F :=
  ⟨List.replicate (channels * blocksize) default, channels, blocksize⟩

/-- `Buffer::new_mono` (allocates `blocksize` default samples, 1 channel). -/
def Buffer.new_mono (F : Type) [Inhabited F] (blocksize : ℕ) : Buffer F :=
  ⟨List.replicate blocksize default, 1, blocksize⟩

/-- `Buffer::new_ref`: wraps borrowed storage; `assert_eq!(channels * blocksize,
samples.len())` panics (`none`) on mismatch. -/
def Buffer.new_ref (channels blocksize : ℕ) {F : Type} (samples : List F) :
    Option (Buffer F) :=
  if channels * blocksize = samples.length then
    some ⟨samples, channels, blocksize⟩
  else none

/-- `Buffer::new_mut`: same length check as `new_ref`, mutable storage. -/
def Buffer.new_mut (channels blocksize : ℕ) {F : Type} (samples : List F) :
    Option (Buffer F) :=
  if channels * blocksize = samples.length then
    some ⟨samples, channels, blocksize⟩
  else none

/-- `Buffer::new_from`: takes ownership of the storage, same length check. -/
def Buffer.new_from (channels blocksize : ℕ) {F : Type} (samples : List F) :
    Option (Buffer F) :=
  if channels * blocksize = samples.length then
    some ⟨samples, channels, blocksize⟩
  else none

/-- `Buffer::mono_ref`: a mono buffer borrowing the whole slice. -/
def Buffer.mono_ref {F : Type} (samples : List F) : Buffer F :=
  ⟨samples, 1, samples.length⟩

/-- Rust `slice::chunks(size)` for `size > 0`: splits into consecutive chunks
of `size` elements, the last chunk possibly shorter.  The `fuel` argument
makes the recursion structural (it strictly bounds the number of chunks and is
irrelevant as long as it is at least the list length, see `sliceChunksF_fuel`);
the out-of-fuel branch is unreachable under that bound. -/
def sliceChunksF {F : Type} (size : ℕ) : ℕ → List F → List (List F)
  | _, [] => []
  | 0, x :: xs => [x :: xs]
  | fuel + 1, x :: xs =>
    if size = 0 then [x :: xs]
    else (x :: xs).take size :: sliceChunksF size fuel ((x :: xs).drop size)

/-- Rust `slice::chunks(size)`, run with enough fuel. -/
def sliceChunks {F : Type} (size : ℕ) (l : List F) : List (List F) :=
  sliceChunksF size l.length l

theorem sliceChunksF_fuel {F : Type} (size : ℕ) :
    ∀ (f f' : ℕ) (l : List F), l.length ≤ f → l.length ≤ f' →
      sliceChunksF size f l = sliceChunksF size f' l := by
  intro f
  induction f with
  | zero =>
    intro f' l hf _
    cases l with
    | nil => cases f' <;> rfl
    | cons x xs => simp at hf
  | succ fl ih =>
    intro f' l hf hf'
    cases l with
    | nil => cases f' <;> rfl
    | cons x xs =>
      cases f' with
      | zero => simp at hf'
      | succ fl' =>
        simp only [sliceChunksF]
        split_ifs
        · rfl
        · rw [ih fl' ((x :: xs).drop size)
            (by simp only [List.length_drop, List.length_cons] at hf ⊢; omega)
            (by simp only [List.length_drop, List.length_cons] at hf' ⊢; omega)]

theorem sliceChunks_cons {F : Type} (size : ℕ) (x : F) (xs : List F) :
    sliceChunks size (x :: xs)
      = if size = 0 then [x :: xs]
        else (x :: xs).take size :: sliceChunks size ((x :: xs).drop size) := by
  unfold sliceChunks
  simp only [List.length_cons, sliceChunksF]
  split_ifs with h
  · rfl
  · rw [sliceChunksF_fuel size xs.length ((x :: xs).drop size).length
      ((x :: xs).drop size) (by simp; omega) (by omega)]

/-- Rust `slice::chunks(size)` including its panic on `size = 0`. -/
def sliceChunks? {F : Type} (size : ℕ) (l : List F) : Option (List (List F)) :=
  if size = 0 then none else some (sliceChunks size l)

/-- `Buffer::<Channels,_>::channels()`: `samples.chunks(blocksize)`, each chunk
viewed as a mono buffer.  `none` models the panic of `chunks(0)`. -/
def Buffer.channelsViews {F : Type} (b : Buffer F) : Option (List (List F)) :=
  sliceChunks? b.blocksize b.samples

/-- `Buffer::<Channels,_>::left()`: `self.channels().take(1).next()`.
Outer `none` models a panic inside `channels()`. -/
def Buffer.left {F : Type} (b : Buffer F) : Option (Option (List F)) :=
  b.channelsViews.map fun chs => chs.get? 0

/-- `Buffer::<Channels,_>::right()`: `self.channels().skip(1).take(1).next()`. -/
def Buffer.right {F : Type} (b : Buffer F) : Option (Option (List F)) :=
  b.channelsViews.map fun chs => chs.get? 1

/-! ### Layout conversion Channels ↔ Interleaved
(src/sample_buffer.rs lines 617-682)

`Interleaved ⇐ Channels`:

    for (n, ch) in other.channels().enumerate() {
        self.samples.as_mut().iter_mut().skip(n).step_by(self.channels)
            .zip(ch.samples())
            .for_each(|(s, os)| s.convert_from(*os));
    }

`writeStride conv step pos dst vals` models one inner pipeline: it writes
`conv v` at positions `pos, pos + step, pos + 2 * step, ...` of `dst`, one
per element of `vals`; writes beyond the end of `dst` are dropped, exactly as
`zip` stops when the `iter_mut` side is exhausted. -/
def writeStride {F G : Type} (conv : G → F) (step : ℕ) :
    ℕ → List F → List G → List F
  | _, dst, [] => dst
  | pos, dst, v :: vs => writeStride conv step (pos + step) (dst.set pos (conv v)) vs

/-- The outer `for (n, ch) in other.channels().enumerate()` loop of the
Channels → Interleaved conversion, starting at channel index `n`. -/
def chToIlLoop {F G : Type} (conv : G → F) (step : ℕ) :
    ℕ → List F → List (List G) → List F
  | _, dst, [] => dst
  | n, dst, ch :: rest => chToIlLoop conv step (n + 1) (writeStride conv step n dst ch) rest

/-- `ConvertFrom<&Buffer<Channels,C2>> for Buffer<Interleaved,C1>::convert_from`.
Panics (`none`) when the channel counts differ (`assert_eq!`), when
`other.channels()` chunks with a zero blocksize, or when `step_by(0)` is
reached (zero destination channels with a nonempty chunk list). -/
def Buffer.convertFromChannels {F G : Type} (conv : G → F)
    (dst : Buffer F) (src : Buffer G) : Option (Buffer F) :=
  if dst.channels ≠ src.channels then none
  else
    match sliceChunks? src.blocksize src.samples with
    | none => none
    | some chunks =>
      if chunks.isEmpty = false ∧ dst.channels = 0 then none
      else some { dst with samples := chToIlLoop conv dst.channels 0 dst.samples chunks }

/-- The strided read `other.samples.iter().skip(start).step_by(step)` limited
to `cnt` elements (the `zip` with the destination chunk): collects
`src[start], src[start + step], ...`, stopping at the end of `src`. -/
def strideRead {G : Type} (src : List G) (step : ℕ) : ℕ → ℕ → List G
  | _, 0 => []
  | start, cnt + 1 =>
    match src.get? start with
    | none => []
    | some v => v :: strideRead src step (start + step) cnt

/-- The outer `for (n, mut ch) in self.channels_mut().enumerate()` loop of the
Interleaved → Channels conversion: `k` chunks remain, the current one starts at
flat position `n * bs` and has length `min bs (dst.length - n * bs)`. -/
def ilToChLoop {F G : Type} (conv : G → F) (step bs : ℕ) (src : List G) :
    ℕ → ℕ → List F → List F
  | 0, _, dst => dst
  | k + 1, n, dst =>
    let cl := min bs (dst.length - n * bs)
    let vals := strideRead src step n cl
    ilToChLoop conv step bs src k (n + 1) (writeStride conv 1 (n * bs) dst vals)

/-- `ConvertFrom<&Buffer<Interleaved,C2>> for Buffer<Channels,C1>::convert_from`.
Panics (`none`) on channel-count mismatch, on `chunks_mut(0)`, or on
`step_by(0)` (zero source channels with destination chunks present). -/
def Buffer.convertFromInterleaved {F G : Type} (conv : G → F)
    (dst : Buffer F) (src : Buffer G) : Option (Buffer F) :=
  if dst.channels ≠ src.channels then none
  else
    match sliceChunks? dst.blocksize dst.samples with
    | none => none
    | some chunks =>
      if chunks.isEmpty = false ∧ src.channels = 0 then none
      else
        let out := ilToChLoop conv src.channels dst.blocksize src.samples chunks.length 0 dst.samples
        some { dst with samples := out }

/-! ## Linear interpolation (src/interpolation.rs, src/sample_buffer.rs
lines 392-418)

`partial_index` and `Lerp for f32` are modelled over `ℚ`; for the small
integer-valued quantities involved the `f32` computation is exact. -/

/-- `Lerp::lerp` for `f32`: `a + (b - a) * alpha`. -/
def lerpScalar (a b alpha : ℚ) : ℚ := a + (b - a) * alpha

/-- `interpolation::partial_index(index, wrap_len)`: floor, fractional part,
and the two wrapped neighbour indices via `rem_euclid`.  Meaningful for
`wrapLen > 0` (with `wrapLen = 0` the `f32` code divides by zero). -/
def partialIdx (index : ℚ) (wrapLen : ℕ) : ℕ × ℕ × ℚ :=
  let f : ℤ := ⌊index⌋
  let alpha : ℚ := index - (f : ℚ)
  ((f % (wrapLen : ℤ)).toNat, ((f + 1) % (wrapLen : ℤ)).toNat, alpha)

/-- `Buffer::<Interleaved,C>::index_lerp` exactly as written in the source:

    let frame0 = &self.samples.as_ref()[index0 * self.blocksize..index1 * self.blocksize];
    let frame1 = &self.samples.as_ref()[index1 * self.blocksize..index1 * self.blocksize];
    ... from_fn: while i < self.blocksize, yield lerp(frame0[i], frame1[i], alpha)

Slicing with an invalid range and indexing out of bounds panic (`none`).
The returned value is the list produced by fully consuming the iterator. -/
def Buffer.indexLerpInterleaved (b : Buffer ℚ) (index : ℚ) : Option (List ℚ) :=
  let p := partialIdx index b.blocksize
  let i0 := p.1
  let i1 := p.2.1
  let alpha := p.2.2
  if i0 * b.blocksize ≤ i1 * b.blocksize ∧ i1 * b.blocksize ≤ b.samples.length then
    let frame0 := (b.samples.drop (i0 * b.blocksize)).take (i1 * b.blocksize - i0 * b.blocksize)
    let frame1 := (b.samples.drop (i1 * b.blocksize)).take 0
    (List.range b.blocksize).mapM fun i =>
      match frame0.get? i, frame1.get? i with
      | some a, some c => some (lerpScalar a c alpha)
      | _, _ => none
  else none

/-! ## Frame and Mono emptiness predicates
(src/sample_buffer/frame.rs lines 20-28, src/sample_buffer/storage.rs
lines 76-85) -/

/-- `Frame` from src/sample_buffer/frame.rs: one sample per channel. -/
structure FrameB (F : Type) where
  data : List F
deriving Repr, DecidableEq

/-- `Frame::len`: number of channels. -/
def FrameB.len {F : Type} (f : FrameB F) : ℕ := f.data.length

/-- `Frame::is_empty` exactly as written: `self.0.as_ref().len() > 0`. -/
def FrameB.is_empty {F : Type} (f : FrameB F) : Bool :=
  decide (0 < f.data.length)

/-- `Mono` from src/sample_buffer/storage.rs: single channel storage. -/
structure MonoB (F : Type) where
  samples : List F
deriving Repr, DecidableEq

/-- `Mono::len`. -/
def MonoB.len {F : Type} (m : MonoB F) : ℕ := m.samples.length

/-- `Mono::is_empty`: `self.samples.as_ref().is_empty()`. -/
def MonoB.is_empty {F : Type} (m : MonoB F) : Bool :=
  m.samples.isEmpty

/-! ## The resynthesis engine (examples/src/resynth.rs)

Complex bins are pairs of rationals; `f32` sample arithmetic is modelled over
`ℚ` (the scheduling and zero-propagation claims do not depend on rounding).
The injected FFT capability, the Hann-table `cos`, `f32::TAU` and the user
processing closure are opaque parameters: the closure can only write the
output spectrum (`FftWindow::set` is its only mutator), so it is modelled as
an arbitrary function from the window to a new output spectrum. -/

/-- A complex frequency-domain bin. -/
abbrev Cpx := ℚ × ℚ

/-- `FftWindow` (examples/src/resynth.rs lines 21-39). The `samples` counter
is a `u32`, kept below `2 ^ 32` by explicit wrapping. -/
structure FftWindow where
  length : ℕ
  input : List (List ℚ)
  input_fft : List (List Cpx)
  output_fft : List (List Cpx)
  output : List (List ℚ)
  index : ℕ
  samples : ℕ

/-- The opaque collaborators of the engine: channel counts, FFT size, the
real-FFT capability (which may also scramble its source buffer, so it returns
both vectors), the `cos`/`TAU` used for the Hann table, and the user
processing closure (modelled as the output spectrum it leaves behind). -/
structure Env where
  I : ℕ
  O : ℕ
  L : ℕ
  cosF : ℚ → ℚ
  tau : ℚ
  fft : List ℚ → List ℚ × List Cpx
  ifft : List Cpx → List Cpx × List ℚ
  proc : FftWindow → List (List Cpx)

/-- `FftWindow::new(length, index, inputs, outputs)`: zero-filled buffers,
`bins() = length / 2 + 1` input bins, `length` output bins. -/
def FftWindow.new (length idx inputs outputs : ℕ) : FftWindow :=
  { length := length
    input := List.replicate inputs (List.replicate length 0)
    input_fft := List.replicate inputs (List.replicate (length / 2 + 1) ((0 : ℚ), (0 : ℚ)))
    output_fft := List.replicate outputs (List.replicate length ((0 : ℚ), (0 : ℚ)))
    output := List.replicate outputs (List.replicate length 0)
    index := idx
    samples := 0 }

/-- The per-channel writes of `FftWindow::write`: for each `(channel, item)`
of the input frame, `input[channel][index] = item * window_value`. -/
def writeChans (idx : ℕ) (wv : ℚ) : List (List ℚ) → List ℚ → List (List ℚ)
  | cs, [] => cs
  | [], _ => []
  | c :: cs, v :: vs => c.set idx (v * wv) :: writeChans idx wv cs vs

/-- `FftWindow::write(input, window_value)`. -/
def FftWindow.write (w : FftWindow) (input : List ℚ) (wv : ℚ) : FftWindow :=
  { w with input := writeChans w.index wv w.input input }

/-- `FftWindow::read(window_value)`: `Frame::generate(|ch| output[ch][index] * wv)`
for `O` output channels. -/
def FftWindow.read (w : FftWindow) (wv : ℚ) (O : ℕ) : List ℚ :=
  (List.range O).map fun ch => ((w.output.getD ch []).getD w.index 0) * wv

/-- `FftWindow::advance`: `samples` wraps as a `u32`, `index` advances by the
power-of-two mask `(index + 1) & (length - 1)`. -/
def FftWindow.advance (w : FftWindow) : FftWindow :=
  { w with
    samples := (w.samples + 1) % 2 ^ 32
    index := (w.index + 1) &&& (w.length - 1) }

/-- `FftWindow::is_fft_time`: `index == 0 && samples >= length as u32`. -/
def FftWindow.isFftTime (w : FftWindow) : Bool :=
  w.index == 0 && decide (w.length % 2 ^ 32 ≤ w.samples)

/-- `FftWindow::clear_output`: zero every output-spectrum bin (lengths kept). -/
def FftWindow.clearOutput (w : FftWindow) : FftWindow :=
  { w with output_fft := w.output_fft.map fun v => List.replicate v.length ((0 : ℚ), (0 : ℚ)) }

/-- Complex conjugate. -/
def conjC (c : Cpx) : Cpx := (c.1, -c.2)

/-- One channel of `FftWindow::extend_values`: for `i` in
`length/2 + 1 .. length`, `v[i] = conj v[length - i]`. -/
def extendChannel (L : ℕ) (v : List Cpx) : List Cpx :=
  (List.range' (L / 2 + 1) (L - (L / 2 + 1))).foldl
    (fun acc i => acc.set i (conjC (acc.getD (L - i) ((0 : ℚ), (0 : ℚ))))) v

/-- `FftWindow::extend_values`: Hermitian extension of every output channel. -/
def FftWindow.extendValues (w : FftWindow) : FftWindow :=
  let offt1 := (List.range w.output.length).foldl
    (fun offt ch => offt.set ch (extendChannel w.length (offt.getD ch []))) w.output_fft
  { w with output_fft := offt1 }

/-- `FftWindow::reset(start_index)`: zero the sample rings, keep the spectra. -/
def FftWindow.reset (w : FftWindow) (start : ℕ) : FftWindow :=
  { w with
    samples := 0
    index := start
    input := w.input.map fun v => List.replicate v.length 0
    output := w.output.map fun v => List.replicate v.length 0 }

/-- The transform block run on one window satisfying `is_fft_time` inside
`Resynth::tick`: forward FFT per input channel, `clear_output`, the user
closure, `extend_values`, inverse FFT per output channel. -/
def processWindow (env : Env) (w : FftWindow) : FftWindow :=
  let w1 := (List.range env.I).foldl
    (fun w ch =>
      let p := env.fft (w.input.getD ch [])
      { w with input := w.input.set ch p.1, input_fft := w.input_fft.set ch p.2 }) w
  let w2 := w1.clearOutput
  let w3 := { w2 with output_fft := env.proc w2 }
  let w4 := w3.extendValues
  (List.range env.O).foldl
    (fun w ch =>
      let p := env.ifft (w.output_fft.getD ch [])
      { w with output_fft := w.output_fft.set ch p.1, output := w.output.set ch p.2 }) w4

/-- `Resynth` (examples/src/resynth.rs lines 194-218): the four phase-offset
windows, the Hann table, the `u32` sample counter and the normalisation `z`. -/
structure Resynth where
  window0 : FftWindow
  window1 : FftWindow
  window2 : FftWindow
  window3 : FftWindow
  window_length : ℕ
  window_function : List ℚ
  samples : ℕ
  z : ℚ

/-- The Hann table built in `Resynth::new`:
`hann = 0.5 + 0.5 * cos((i - (L >> 1)) * TAU / L)`. -/
def hannTable (env : Env) (L : ℕ) : List ℚ :=
  (List.range L).map fun i : ℕ =>
    1 / 2 + 1 / 2 * env.cosF (((i : ℚ) - ((L >>> 1 : ℕ) : ℚ)) * env.tau / (L : ℚ))

/-- `Resynth::new`: staggered start offsets `0, L >> 2, L >> 1, (L >> 1) + (L >> 2)`.
The source asserts `L >= 4 && L.is_power_of_two()`; the claims about the
engine carry that construction precondition as a hypothesis. -/
def Resynth.new (env : Env) : Resynth :=
  { window0 := FftWindow.new env.L 0 env.I env.O
    window1 := FftWindow.new env.L (env.L >>> 2) env.I env.O
    window2 := FftWindow.new env.L (env.L >>> 1) env.I env.O
    window3 := FftWindow.new env.L ((env.L >>> 1) + (env.L >>> 2)) env.I env.O
    window_length := env.L
    window_function := hannTable env env.L
    samples := 0
    z := 2 / 3 }

/-- `Resynth::reset`: `window[i].reset(i * (window_length >> 2))`. -/
def Resynth.reset (s : Resynth) : Resynth :=
  { s with
    samples := 0
    window0 := s.window0.reset (0 * (s.window_length >>> 2))
    window1 := s.window1.reset (1 * (s.window_length >>> 2))
    window2 := s.window2.reset (2 * (s.window_length >>> 2))
    window3 := s.window3.reset (3 * (s.window_length >>> 2)) }

/-- The write / accumulate-read / advance step of `Resynth::tick` for one
window; returns the advanced window and the read contribution added into the
accumulated output frame. -/
def tickWindow (s : Resynth) (env : Env) (w : FftWindow) (input acc : List ℚ) :
    FftWindow × List ℚ :=
  let wv := s.window_function.getD w.index 0
  let w1 := w.write input wv
  let acc1 := List.zipWith (· + ·) acc (w1.read (wv * s.z) env.O)
  (w1.advance, acc1)

/-- The conditional transform block of `Resynth::tick`, applied to one window:
`for window in self.window.iter_mut().filter(|w| w.is_fft_time())` guarded by
the hop-boundary check on the global counter. -/
def fftStep (env : Env) (hop : Bool) (w : FftWindow) : FftWindow :=
  if hop && w.isFftTime then processWindow env w else w

/-- `Resynth::tick(input) -> output`: the four write/read/advance steps, the
`u32` counter increment, and — every `L / 4` samples by the wrapped counter —
the transform block on every window whose `is_fft_time()` holds. -/
def Resynth.tick (env : Env) (s : Resynth) (input : List ℚ) : Resynth × List ℚ :=
  let p0 := tickWindow s env s.window0 input (List.replicate env.O 0)
  let p1 := tickWindow s env s.window1 input p0.2
  let p2 := tickWindow s env s.window2 input p1.2
  let p3 := tickWindow s env s.window3 input p2.2
  let samples1 := (s.samples + 1) % 2 ^ 32
  let hop := samples1 &&& (((s.window_length % 2 ^ 32) >>> 2) - 1) == 0
  (⟨fftStep env hop p0.1, fftStep env hop p1.1, fftStep env hop p2.1, fftStep env hop p3.1,
    s.window_length, s.window_function, samples1, s.z⟩, p3.2)

/-- Runs the engine for `t` ticks from the state `s0`, feeding the input
frame `ins k` at tick `k`. -/
def runFrom (env : Env) (s0 : Resynth) (ins : ℕ → List ℚ) : ℕ → Resynth
  | 0 => s0
  | t + 1 => (Resynth.tick env (runFrom env s0 ins t) (ins t)).1

/-- The output frame produced at sample index `t`. -/
def outAt (env : Env) (s0 : Resynth) (ins : ℕ → List ℚ) (t : ℕ) : List ℚ :=
  (Resynth.tick env (runFrom env s0 ins t) (ins t)).2

/-- The four windows as a list, in array order. -/
def Resynth.windows (s : Resynth) : List FftWindow :=
  [s.window0, s.window1, s.window2, s.window3]

/-- States a `Resynth` value can reach from construction by ticking with
arbitrary inputs and resetting: the lifecycle of an actual instance. -/
inductive Reachable (env : Env) : Resynth → Prop
  | init : Reachable env (Resynth.new env)
  | tick (s : Resynth) (input : List ℚ) :
      Reachable env s → Reachable env (Resynth.tick env s input).1
  | reset (s : Resynth) : Reachable env s → Reachable env (Resynth.reset s)

/-! ## Theorems -/

/-! ### C2: the i32 ↔ f32 round trip -/

theorem f32ulpExp_ge_one (n : ℕ) : 1 ≤ f32ulpExp n := by
  unfold f32ulpExp
  split_ifs <;> norm_num

theorem f32ulpExp_le_seven (n : ℕ) : f32ulpExp n ≤ 7 := by
  unfold f32ulpExp
  split_ifs <;> norm_num

/-- One rounding step at the binary32 quantum moves a magnitude by at most
half a quantum. -/
theorem roundMag_err (n : ℕ) :
    ((roundMag n : ℤ) - (n : ℤ)).natAbs ≤ 2 ^ (f32ulpExp n - 1) := by
  have he : 1 ≤ f32ulpExp n := f32ulpExp_ge_one n
  unfold roundMag
  set e := f32ulpExp n with hedef
  have hsplit : n / 2 ^ e * 2 ^ e + n % 2 ^ e = n := Nat.div_add_mod' n (2 ^ e)
  have hlt : n % 2 ^ e < 2 ^ e := Nat.mod_lt _ (Nat.pos_pow_of_pos e (by norm_num))
  have hdouble : 2 ^ (e - 1) + 2 ^ (e - 1) = 2 ^ e := by
    have h1 : e - 1 + 1 = e := Nat.succ_pred_eq_of_pos he
    calc 2 ^ (e - 1) + 2 ^ (e - 1) = 2 ^ (e - 1) * 2 := by ring
    _ = 2 ^ (e - 1 + 1) := (pow_succ 2 (e - 1)).symm
    _ = 2 ^ e := by rw [h1]
  have hsucc : (n / 2 ^ e + 1) * 2 ^ e = n / 2 ^ e * 2 ^ e + 2 ^ e := by ring
  split_ifs with hup
  · rw [hsucc]
    omega
  · omega

/-- The binary32 rounding of an integer of i32 magnitude moves it by at most
64 (half the quantum at the top of the range). -/
theorem rnd24_err (v : ℤ) (_h : v.natAbs ≤ 2 ^ 31) : (rnd24 v - v).natAbs ≤ 64 := by
  have he7 : f32ulpExp v.natAbs ≤ 7 := f32ulpExp_le_seven _
  have hstep := roundMag_err v.natAbs
  have hhalf : (2 : ℕ) ^ (f32ulpExp v.natAbs - 1) ≤ 64 := by
    calc (2 : ℕ) ^ (f32ulpExp v.natAbs - 1) ≤ 2 ^ 6 :=
      Nat.pow_le_pow_right (by norm_num) (by omega)
    _ = 64 := by norm_num
  unfold rnd24
  split_ifs with h24 hneg
  · omega
  · have hv : v = -(v.natAbs : ℤ) := by omega
    omega
  · have hv : v = (v.natAbs : ℤ) := by omega
    omega

/-- A magnitude at most `2 ^ (e + 1)` (with `24 ≤ e`) rounds at a binary32
quantum of at most `2 ^ (e - 23)`. -/
theorem f32ulpExp_le_of_le (n e : ℕ) (he : 24 ≤ e) (hn : n ≤ 2 ^ (e + 1)) :
    f32ulpExp n ≤ e - 23 := by
  have hmono : ∀ a : ℕ, 2 ^ a < 2 ^ (e + 1) → a ≤ e := by
    intro a ha
    have := (Nat.pow_lt_pow_iff_right (by norm_num : (1:ℕ) < 2)).mp ha
    omega
  unfold f32ulpExp
  split_ifs with h1 h2 h3 h4 h5 h6
  · omega
  · have := hmono 25 (lt_of_lt_of_le (by omega) hn)
    omega
  · have := hmono 26 (lt_of_lt_of_le (by omega) hn)
    omega
  · have := hmono 27 (lt_of_lt_of_le (by omega) hn)
    omega
  · have := hmono 28 (lt_of_lt_of_le (by omega) hn)
    omega
  · have := hmono 29 (lt_of_lt_of_le (by omega) hn)
    omega
  · have := hmono 30 (lt_of_lt_of_le (by omega) hn)
    omega

/-- Per-binade form of the rounding bound: the binary32 rounding of an
integer of magnitude at most `2 ^ (e + 1)` moves it by at most `2 ^ (e - 24)`
(half the quantum of that binade). -/
theorem rnd24_err_binade (v : ℤ) (e : ℕ) (he : 24 ≤ e) (hv : v.natAbs ≤ 2 ^ (e + 1)) :
    (rnd24 v - v).natAbs ≤ 2 ^ (e - 24) := by
  have hstep := roundMag_err v.natAbs
  have hle : f32ulpExp v.natAbs ≤ e - 23 := f32ulpExp_le_of_le _ e he hv
  have hpow : (2 : ℕ) ^ (f32ulpExp v.natAbs - 1) ≤ 2 ^ (e - 24) :=
    Nat.pow_le_pow_right (by norm_num) (by omega)
  unfold rnd24
  split_ifs with h24 hneg
  · simp
  · have hv' : v = -(v.natAbs : ℤ) := by omega
    omega
  · have hv' : v = (v.natAbs : ℤ) := by omega
    omega

/-- Ties-to-even integer rounding moves a rational by at most one half. -/
theorem rte_err (m : ℚ) : |(rte m : ℚ) - m| ≤ 1 / 2 := by
  have h0 : (⌊m⌋ : ℚ) ≤ m := Int.floor_le m
  have h1 : m < ⌊m⌋ + 1 := Int.lt_floor_add_one m
  unfold rte
  split_ifs with hf1 hf2 hpar <;>
    · rw [abs_le]
      constructor <;> push_cast <;> linarith

/-- One binary32 rounding moves `x` by at most half the quantum at its
binade. -/
theorem rndF32_err (x : ℚ) (hx : x ≠ 0) :
    |rndF32 x - x| ≤ 2 ^ (Int.log 2 |x| - 24) := by
  unfold rndF32
  rw [if_neg hx]
  have hq : (0 : ℚ) < 2 ^ (Int.log 2 |x| - 23) := zpow_pos (by norm_num) _
  have hkey : (rte (x / 2 ^ (Int.log 2 |x| - 23)) : ℚ) * 2 ^ (Int.log 2 |x| - 23) - x
      = ((rte (x / 2 ^ (Int.log 2 |x| - 23)) : ℚ) - x / 2 ^ (Int.log 2 |x| - 23))
        * 2 ^ (Int.log 2 |x| - 23) := by
    rw [sub_mul, div_mul_cancel₀ _ (ne_of_gt hq)]
  rw [hkey, abs_mul, abs_of_pos hq]
  have hrte := rte_err (x / 2 ^ (Int.log 2 |x| - 23))
  have h2 : (2 : ℚ) ^ (Int.log 2 |x| - 23) = 2 ^ (Int.log 2 |x| - 24) * 2 := by
    rw [← zpow_add_one₀ (by norm_num : (2:ℚ) ≠ 0)]
    congr 1
    ring
  calc |(rte (x / 2 ^ (Int.log 2 |x| - 23)) : ℚ) - x / 2 ^ (Int.log 2 |x| - 23)|
        * 2 ^ (Int.log 2 |x| - 23)
      ≤ (1 / 2) * 2 ^ (Int.log 2 |x| - 23) :=
        mul_le_mul_of_nonneg_right hrte (le_of_lt hq)
  _ = 2 ^ (Int.log 2 |x| - 24) := by rw [h2]; ring

/-- Half-ulp bound with the binade bounded explicitly. -/
theorem rndF32_close (x : ℚ) (k : ℤ) (hx : x ≠ 0) (hk : |x| < 2 ^ (k + 1)) :
    |rndF32 x - x| ≤ 2 ^ (k - 24) := by
  have h0 : (0 : ℚ) < |x| := abs_pos.mpr hx
  have h2 : |x| < ((2 : ℕ) : ℚ) ^ (k + 1) := by exact_mod_cast hk
  have hlog : Int.log 2 |x| ≤ k := by
    have := (@Int.lt_zpow_iff_log_lt ℚ _ _ 2 (by norm_num) (k + 1) |x| h0).mp h2
    omega
  refine le_trans (rndF32_err x hx) ?_
  exact zpow_le_zpow_right₀ (by norm_num) (by omega)

/-- The rounded constant `MUL16` is within its half-ulp `2 ^ (-39)` of
`1 / 32767`. -/
theorem MUL16_err : |MUL16 - 1 / 32767| ≤ 1 / 549755813888 := by
  have h := rndF32_close (1 / 32767) (-15) (by norm_num) ?_
  · have he : ((-15 : ℤ) - 24) = -39 := by norm_num
    rw [he] at h
    have h39 : ((2:ℚ) ^ (-39 : ℤ)) = 1 / 549755813888 := by norm_num
    rw [h39] at h
    unfold MUL16
    exact h
  · rw [abs_of_pos (by norm_num : (0:ℚ) < 1 / 32767)]
    norm_num

/-- Truncation toward zero and i16 saturation of a rational within `1/128` of
an in-range integer land within one unit of that integer. -/
theorem truncQ_clamp_close (w : ℤ) (z : ℚ) (h1 : -(2 ^ 15) ≤ w) (h2 : w ≤ 2 ^ 15 - 1)
    (hz : |z - (w : ℚ)| ≤ 1 / 128) :
    (max (-(2 ^ 15)) (min (2 ^ 15 - 1) (truncQ z)) - w).natAbs ≤ 1 := by
  rw [abs_le] at hz
  have ht : w - 1 ≤ truncQ z ∧ truncQ z ≤ w + 1 := by
    unfold truncQ
    split_ifs with _hpos
    · constructor
      · rw [Int.le_floor]
        push_cast
        linarith [hz.1]
      · have hfl : (⌊z⌋ : ℚ) ≤ z := Int.floor_le z
        have hfl2 : (⌊z⌋ : ℚ) ≤ ((w + 1 : ℤ) : ℚ) := by
          push_cast
          linarith [hz.2]
        exact_mod_cast hfl2
    · constructor
      · have hlow : ((w - 1 : ℤ) : ℚ) ≤ z := by
          push_cast
          linarith [hz.1]
        have h6 : ((w - 1 : ℤ) : ℚ) ≤ (⌈z⌉ : ℚ) := le_trans hlow (Int.le_ceil z)
        exact_mod_cast h6
      · rw [Int.ceil_le]
        push_cast
        linarith [hz.2]
  omega

/-- The i16 → f32 → i16 round trip lands within one integer unit: the three
roundings (of `MUL`, of `v as f32 * MUL` and of the product by `32767.0`)
together move the value by well under one half, and the final truncation
toward zero accounts for the remaining unit. -/
theorem i16RoundTrip_within_one (w : ℤ) (h1 : -(2 ^ 15) ≤ w) (h2 : w ≤ 2 ^ 15 - 1) :
    (i16RoundTrip w - w).natAbs ≤ 1 := by
  rcases eq_or_ne w 0 with rfl | hw0
  · norm_num [i16RoundTrip, i16ToF32, f32ToI16, rndF32, truncQ]
  have h1' : (-32768 : ℚ) ≤ (w : ℚ) := by exact_mod_cast (by omega : (-32768 : ℤ) ≤ w)
  have h2' : ((w : ℚ)) ≤ 32767 := by exact_mod_cast (by omega : w ≤ (32767 : ℤ))
  have hwabs : |(w : ℚ)| ≤ 32768 := by
    rw [abs_le]
    constructor <;> linarith
  have hwge1 : (1 : ℚ) ≤ |(w : ℚ)| := by
    have hint : (1 : ℤ) ≤ |w| := Int.one_le_abs hw0
    calc (1 : ℚ) ≤ ((|w| : ℤ) : ℚ) := by exact_mod_cast hint
    _ = |(w : ℚ)| := by push_cast; rfl
  have hm := MUL16_err
  rw [abs_le] at hm
  have hmulpos : (0 : ℚ) < MUL16 := by linarith [hm.1]
  set x1 : ℚ := (w : ℚ) * MUL16 with hx1def
  have hx1ne : x1 ≠ 0 := by
    rw [hx1def]
    exact mul_ne_zero (Int.cast_ne_zero.mpr hw0) (ne_of_gt hmulpos)
  have habs_m : |MUL16| ≤ 1 / 32767 + 1 / 549755813888 := by
    rw [abs_le]
    constructor <;> linarith [hm.1, hm.2]
  have hx1abs : |x1| ≤ 32768 * (1 / 32767 + 1 / 549755813888) := by
    rw [hx1def, abs_mul]
    exact mul_le_mul hwabs habs_m (abs_nonneg _) (by norm_num)
  have hx1lt : |x1| < 2 ^ ((0 : ℤ) + 1) := by
    refine lt_of_le_of_lt hx1abs ?_
    norm_num
  have hd1 := rndF32_close x1 0 hx1ne hx1lt
  have hd1' : |rndF32 x1 - x1| ≤ 1 / 16777216 := by
    have h024 : ((2:ℚ) ^ ((0 : ℤ) - 24)) = 1 / 16777216 := by norm_num
    rwa [h024] at hd1
  have hx1lb : 1 / 32767 - 1 / 549755813888 ≤ |x1| := by
    rw [hx1def, abs_mul, abs_of_pos hmulpos]
    calc 1 / 32767 - 1 / 549755813888 ≤ 1 * MUL16 := by linarith [hm.1]
    _ ≤ |(w : ℚ)| * MUL16 := mul_le_mul_of_nonneg_right hwge1 (le_of_lt hmulpos)
  have hyabs : |rndF32 x1| ≤ 32768 * (1 / 32767 + 1 / 549755813888) + 1 / 16777216 := by
    have htri := abs_sub_abs_le_abs_sub (rndF32 x1) x1
    linarith [hd1', hx1abs]
  have hylb : 0 < |rndF32 x1| := by
    have htri := abs_sub_abs_le_abs_sub x1 (rndF32 x1)
    have hc : |x1 - rndF32 x1| = |rndF32 x1 - x1| := abs_sub_comm _ _
    rw [hc] at htri
    linarith [hx1lb, hd1']
  have hyne : rndF32 x1 ≠ 0 := abs_pos.mp hylb
  have hx2ne : rndF32 x1 * 32767 ≠ 0 := mul_ne_zero hyne (by norm_num)
  have hx2abs : |rndF32 x1 * 32767|
      ≤ (32768 * (1 / 32767 + 1 / 549755813888) + 1 / 16777216) * 32767 := by
    rw [abs_mul, abs_of_pos (by norm_num : (0:ℚ) < 32767)]
    exact mul_le_mul_of_nonneg_right hyabs (by norm_num)
  have hx2lt : |rndF32 x1 * 32767| < 2 ^ ((15 : ℤ) + 1) := by
    refine lt_of_le_of_lt hx2abs ?_
    norm_num
  have hd2 := rndF32_close _ 15 hx2ne hx2lt
  have hd2' : |rndF32 (rndF32 x1 * 32767) - rndF32 x1 * 32767| ≤ 1 / 512 := by
    have h1524 : ((2:ℚ) ^ ((15 : ℤ) - 24)) = 1 / 512 := by norm_num
    rwa [h1524] at hd2
  have hsplit : rndF32 (rndF32 x1 * 32767) - (w : ℚ)
      = (rndF32 (rndF32 x1 * 32767) - rndF32 x1 * 32767)
        + (rndF32 x1 - x1) * 32767
        + (w : ℚ) * (MUL16 - 1 / 32767) * 32767 := by
    rw [hx1def]
    ring
  have hsecond : |(rndF32 x1 - x1) * 32767| ≤ (1 / 16777216) * 32767 := by
    rw [abs_mul, abs_of_pos (by norm_num : (0:ℚ) < 32767)]
    exact mul_le_mul_of_nonneg_right hd1' (by norm_num)
  have hthird : |(w : ℚ) * (MUL16 - 1 / 32767) * 32767|
      ≤ 32768 * (1 / 549755813888) * 32767 := by
    rw [abs_mul, abs_mul, abs_of_pos (by norm_num : (0:ℚ) < 32767)]
    have hmd : |MUL16 - 1 / 32767| ≤ 1 / 549755813888 := by
      rw [abs_le]
      exact hm
    have h5 : |(w : ℚ)| * |MUL16 - 1 / 32767| ≤ 32768 * (1 / 549755813888) :=
      mul_le_mul hwabs hmd (abs_nonneg _) (by norm_num)
    exact mul_le_mul_of_nonneg_right h5 (by norm_num)
  have htotal : |rndF32 (rndF32 x1 * 32767) - (w : ℚ)| ≤ 1 / 128 := by
    rw [hsplit]
    calc |(rndF32 (rndF32 x1 * 32767) - rndF32 x1 * 32767)
          + (rndF32 x1 - x1) * 32767
          + (w : ℚ) * (MUL16 - 1 / 32767) * 32767|
        ≤ |(rndF32 (rndF32 x1 * 32767) - rndF32 x1 * 32767)
            + (rndF32 x1 - x1) * 32767|
          + |(w : ℚ) * (MUL16 - 1 / 32767) * 32767| := abs_add _ _
    _ ≤ |rndF32 (rndF32 x1 * 32767) - rndF32 x1 * 32767|
          + |(rndF32 x1 - x1) * 32767|
          + |(w : ℚ) * (MUL16 - 1 / 32767) * 32767| := by
        linarith [abs_add (rndF32 (rndF32 x1 * 32767) - rndF32 x1 * 32767)
          ((rndF32 x1 - x1) * 32767)]
    _ ≤ 1 / 128 := by linarith [hd2', hsecond, hthird]
  have hfinal := truncQ_clamp_close w (rndF32 (rndF32 x1 * 32767)) h1 h2 htotal
  unfold i16RoundTrip i16ToF32 f32ToI16
  rw [← hx1def]
  exact hfinal

/-- C2 (amended): the scalar conversions follow the canonical laws
`float = pcm * (1 / 2^31)` resp. `* (1 / 32767)` and
`pcm = float * 2^31` resp. `* 32767` truncated toward zero (each computed in
binary32), and the round trips satisfy: the i32 round trip is exact for
`|v| ≤ 2^24` and otherwise lands within half a binary32 ulp of `v` —
`|roundtrip v - v| ≤ 2^(e-24)` whenever `|v| ≤ 2^(e+1)` (so at most 64 units
at the top of the range), which is NOT within ±1 unit; the i16 round trip is
within ±1 unit. -/
theorem pcm_float_roundtrip (v w : ℤ)
    (hv1 : -(2 ^ 31) ≤ v) (hv2 : v ≤ 2 ^ 31 - 1)
    (hw1 : -(2 ^ 15) ≤ w) (hw2 : w ≤ 2 ^ 15 - 1) :
    (v.natAbs ≤ 2 ^ 24 → i32RoundTrip v = v) ∧
    (∀ e : ℕ, 24 ≤ e → v.natAbs ≤ 2 ^ (e + 1) →
      (i32RoundTrip v - v).natAbs ≤ 2 ^ (e - 24)) ∧
    (i32RoundTrip v - v).natAbs ≤ 64 ∧
    (i16RoundTrip w - w).natAbs ≤ 1 := by
  refine ⟨?_, ?_, ?_, i16RoundTrip_within_one w hw1 hw2⟩
  · intro h24
    unfold i32RoundTrip rnd24
    rw [if_pos h24]
    omega
  · intro e he hv
    have herr := rnd24_err_binade v e he hv
    unfold i32RoundTrip
    omega
  · have herr := rnd24_err v (by omega)
    unfold i32RoundTrip
    omega

theorem pcm_float_roundtrip_witness :
    (-(2 ^ 31) ≤ (33554434 : ℤ) ∧ (33554434 : ℤ) ≤ 2 ^ 31 - 1 ∧
      -(2 ^ 15) ≤ (12345 : ℤ) ∧ (12345 : ℤ) ≤ 2 ^ 15 - 1 ∧
      (24 ≤ 25 ∧ (33554434 : ℤ).natAbs ≤ 2 ^ (25 + 1))) ∧
    (i32RoundTrip 33554434 - 33554434).natAbs ≤ 2 ^ (25 - 24) ∧
    (i16RoundTrip 12345 - 12345).natAbs ≤ 1 :=
  ⟨⟨by decide, by decide, by decide, by decide, by decide, by decide⟩,
    (pcm_float_roundtrip 33554434 12345 (by decide) (by decide) (by decide)
      (by decide)).2.1 25 (by decide) (by decide),
    (pcm_float_roundtrip 33554434 12345 (by decide) (by decide) (by decide)
      (by decide)).2.2.2⟩

/-- C2 counterexample: at `v = 2^25 + 2` the round trip lands 2 units away,
refuting the claimed ±1-unit bound on the fixed-point value. -/
theorem i32RoundTrip_not_within_one_unit :
    i32RoundTrip 33554434 = 33554432 ∧
      ¬ (i32RoundTrip 33554434 - 33554434).natAbs ≤ 1 := by
  constructor
  · decide
  · decide

/-! ### Machinery for the Channels ↔ Interleaved conversions -/

theorem writeStride_length {F G : Type} (conv : G → F) (step : ℕ) (vals : List G) :
    ∀ (pos : ℕ) (dst : List F),
      (writeStride conv step pos dst vals).length = dst.length := by
  induction vals with
  | nil => intro pos dst; rfl
  | cons v vs ih =>
    intro pos dst
    simp only [writeStride]
    rw [ih, List.length_set]

theorem writeStride_get_low {F G : Type} (conv : G → F) (step : ℕ) (vals : List G) :
    ∀ (pos q : ℕ) (dst : List F), q < pos →
      (writeStride conv step pos dst vals).get? q = dst.get? q := by
  induction vals with
  | nil => intro pos q dst _; rfl
  | cons v vs ih =>
    intro pos q dst hq
    simp only [writeStride]
    rw [ih (pos + step) q _ (by omega), List.get?_set_ne _ _ (by omega)]

theorem writeStride_get_mod {F G : Type} (conv : G → F) (step : ℕ) (vals : List G) :
    ∀ (pos q : ℕ) (dst : List F), 1 ≤ step → q % step ≠ pos % step →
      (writeStride conv step pos dst vals).get? q = dst.get? q := by
  induction vals with
  | nil => intro pos q dst _ _; rfl
  | cons v vs ih =>
    intro pos q dst hstep hq
    have hmod : (pos + step) % step = pos % step := Nat.add_mod_right pos step
    have hne : q ≠ pos := by
      intro h
      exact hq (h ▸ rfl)
    simp only [writeStride]
    rw [ih (pos + step) q _ hstep (by rw [hmod]; exact hq),
      List.get?_set_ne _ _ (by omega)]

theorem writeStride_get_high {F G : Type} (conv : G → F) (step : ℕ) (vals : List G) :
    ∀ (pos q : ℕ) (dst : List F), 1 ≤ step → pos ≤ q →
      vals.length ≤ (q - pos) / step →
      (writeStride conv step pos dst vals).get? q = dst.get? q := by
  induction vals with
  | nil => intro pos q dst _ _ _; rfl
  | cons v vs ih =>
    intro pos q dst hstep hpos hlen
    have h1 : 1 ≤ (q - pos) / step := by
      have := hlen
      simp only [List.length_cons] at this
      omega
    have h2 : step ≤ q - pos := by
      have := (Nat.le_div_iff_mul_le (by omega : 0 < step)).mp h1
      omega
    have h3 : vs.length ≤ (q - (pos + step)) / step := by
      have hsub : (q - pos - step) / step = (q - pos) / step - 1 := by
        have := Nat.sub_mul_div (q - pos) step 1 (by omega)
        simpa using this
      have hq' : q - (pos + step) = q - pos - step := by omega
      rw [hq', hsub]
      simp only [List.length_cons] at hlen
      omega
    simp only [writeStride]
    rw [ih (pos + step) q _ hstep (by omega) h3,
      List.get?_set_ne _ _ (by omega)]

theorem writeStride_get_hit {F G : Type} (conv : G → F) (step : ℕ) (vals : List G) :
    ∀ (pos j : ℕ) (dst : List F), 1 ≤ step → j < vals.length →
      pos + j * step < dst.length →
      (writeStride conv step pos dst vals).get? (pos + j * step)
        = (vals.get? j).map conv := by
  induction vals with
  | nil => intro pos j dst _ hj _; simp at hj
  | cons v vs ih =>
    intro pos j dst hstep hj hlt
    cases j with
    | zero =>
      simp only [writeStride, Nat.zero_mul, Nat.add_zero] at hlt ⊢
      rw [writeStride_get_low conv step vs (pos + step) pos _ (by omega)]
      simp [List.get?_set_eq_of_lt, hlt]
    | succ j' =>
      simp only [writeStride]
      have harith : pos + (j' + 1) * step = (pos + step) + j' * step := by ring
      rw [harith, ih (pos + step) j' _ hstep (by simpa using hj)
        (by rw [List.length_set]; omega)]
      simp

theorem strideRead_length {G : Type} (src : List G) (step : ℕ) :
    ∀ (cnt start : ℕ), (∀ j, j < cnt → start + j * step < src.length) →
      (strideRead src step start cnt).length = cnt := by
  intro cnt
  induction cnt with
  | zero => intro start _; rfl
  | succ c ih =>
    intro start hin
    have hstart : start < src.length := by
      have := hin 0 (by omega)
      omega
    have hv : src.get? start = some (src.get ⟨start, hstart⟩) :=
      List.get?_eq_get hstart
    simp only [strideRead, hv, List.length_cons]
    rw [ih (start + step)]
    intro j hj
    have harith : (start + step) + j * step = start + (j + 1) * step := by ring
    rw [harith]
    exact hin (j + 1) (by omega)

theorem strideRead_get {G : Type} (src : List G) (step : ℕ) :
    ∀ (cnt start i : ℕ), i < cnt → start + i * step < src.length →
      (strideRead src step start cnt).get? i = src.get? (start + i * step) := by
  intro cnt
  induction cnt with
  | zero => intro start i hi _; omega
  | succ c ih =>
    intro start i hi hin
    have hstart : start < src.length := by
      have hmono : start ≤ start + i * step := by omega
      omega
    have hv : src.get? start = some (src.get ⟨start, hstart⟩) :=
      List.get?_eq_get hstart
    simp only [strideRead, hv]
    cases i with
    | zero => simp [hv]
    | succ i' =>
      have harith : start + (i' + 1) * step = (start + step) + i' * step := by ring
      simp only [List.get?_cons_succ]
      rw [ih (start + step) i' (by omega) (harith ▸ hin), ← harith]

theorem chToIlLoop_length {F G : Type} (conv : G → F) (step : ℕ)
    (chunks : List (List G)) : ∀ (n0 : ℕ) (dst : List F),
      (chToIlLoop conv step n0 dst chunks).length = dst.length := by
  induction chunks with
  | nil => intro n0 dst; rfl
  | cons ch rest ih =>
    intro n0 dst
    simp only [chToIlLoop]
    rw [ih, writeStride_length]

theorem chToIlLoop_get_mod {F G : Type} (conv : G → F) (step : ℕ)
    (chunks : List (List G)) : ∀ (n0 q : ℕ) (dst : List F), 1 ≤ step →
      n0 + chunks.length ≤ step →
      (q % step < n0 ∨ n0 + chunks.length ≤ q % step) →
      (chToIlLoop conv step n0 dst chunks).get? q = dst.get? q := by
  induction chunks with
  | nil => intro n0 q dst _ _ _; rfl
  | cons ch rest ih =>
    intro n0 q dst hstep hb hq
    simp only [List.length_cons] at hb hq
    have hn0 : n0 < step := by omega
    simp only [chToIlLoop]
    rw [ih (n0 + 1) q _ hstep (by omega) (by omega)]
    exact writeStride_get_mod conv step ch n0 q dst hstep
      (by rw [Nat.mod_eq_of_lt hn0]; omega)

theorem chToIlLoop_get_hit {F G : Type} (conv : G → F) (step : ℕ)
    (chunks : List (List G)) : ∀ (n0 m i : ℕ) (ch : List G) (dst : List F),
      1 ≤ step →
      n0 + chunks.length ≤ step →
      chunks.get? m = some ch →
      i < ch.length →
      n0 + m + i * step < dst.length →
      (chToIlLoop conv step n0 dst chunks).get? (n0 + m + i * step)
        = (ch.get? i).map conv := by
  induction chunks with
  | nil => intro n0 m i ch dst _ _ hm _ _; simp at hm
  | cons c rest ih =>
    intro n0 m i ch dst hstep hb hm hi hlt
    simp only [List.length_cons] at hb
    cases m with
    | zero =>
      simp only [List.get?_cons_zero, Option.some.injEq] at hm
      subst hm
      simp only [chToIlLoop]
      rw [chToIlLoop_get_mod conv step rest (n0 + 1) _ _ hstep (by omega)
        (by
          left
          have : (n0 + 0 + i * step) % step = n0 % step := by
            have harith : n0 + 0 + i * step = n0 + i * step := by ring
            rw [harith, Nat.add_mul_mod_self_right]
          rw [this, Nat.mod_eq_of_lt (by omega)]
          omega)]
      have harith : n0 + 0 + i * step = n0 + i * step := by ring
      rw [harith]
      exact writeStride_get_hit conv step _ n0 i dst hstep hi (by omega)
    | succ m' =>
      simp only [List.get?_cons_succ] at hm
      simp only [chToIlLoop]
      have harith : n0 + (m' + 1) + i * step = (n0 + 1) + m' + i * step := by ring
      rw [harith, ih (n0 + 1) m' i ch _ hstep (by omega) hm hi
        (by rw [writeStride_length]; omega)]

theorem ilToChLoop_length {F G : Type} (conv : G → F) (step bs : ℕ) (src : List G) :
    ∀ (k n0 : ℕ) (dst : List F),
      (ilToChLoop conv step bs src k n0 dst).length = dst.length := by
  intro k
  induction k with
  | zero => intro n0 dst; rfl
  | succ k' ih =>
    intro n0 dst
    simp only [ilToChLoop]
    rw [ih, writeStride_length]

theorem ilToChLoop_get_low {F G : Type} (conv : G → F) (step bs : ℕ) (src : List G) :
    ∀ (k n0 q : ℕ) (dst : List F), q < n0 * bs →
      (ilToChLoop conv step bs src k n0 dst).get? q = dst.get? q := by
  intro k
  induction k with
  | zero => intro n0 q dst _; rfl
  | succ k' ih =>
    intro n0 q dst hq
    simp only [ilToChLoop]
    rw [ih (n0 + 1) q _ (by
        have : n0 * bs ≤ (n0 + 1) * bs := by
          have := Nat.mul_le_mul_right bs (by omega : n0 ≤ n0 + 1)
          omega
        omega)]
    exact writeStride_get_low conv 1 _ (n0 * bs) q dst hq

theorem ilToChLoop_get_hit {F G : Type} (conv : G → F) (step bs : ℕ) (src : List G) :
    ∀ (k m i n0 : ℕ) (dst : List F), m < k → i < bs →
      i < (strideRead src step (n0 + m) (min bs (dst.length - (n0 + m) * bs))).length →
      (n0 + m) * bs + i < dst.length →
      (ilToChLoop conv step bs src k n0 dst).get? ((n0 + m) * bs + i)
        = ((strideRead src step (n0 + m)
            (min bs (dst.length - (n0 + m) * bs))).get? i).map conv := by
  intro k
  induction k with
  | zero => intro m i n0 dst hm _ _ _; omega
  | succ k' ih =>
    intro m i n0 dst hm hibs hival hlt
    cases m with
    | zero =>
      simp only [Nat.add_zero] at hival hlt ⊢
      simp only [ilToChLoop]
      rw [ilToChLoop_get_low conv step bs src k' (n0 + 1) _ _ (by
          have hmul : (n0 + 1) * bs = n0 * bs + bs := by ring
          omega)]
      have hj : n0 * bs + i = n0 * bs + i * 1 := by ring
      rw [hj]
      exact writeStride_get_hit conv 1 _ (n0 * bs) i dst (by omega) hival (by omega)
    | succ m' =>
      simp only [ilToChLoop]
      have harith : n0 + (m' + 1) = (n0 + 1) + m' := by ring
      have hlen : (writeStride conv 1 (n0 * bs) dst
          (strideRead src step n0 (min bs (dst.length - n0 * bs)))).length
            = dst.length := writeStride_length conv 1 _ (n0 * bs) dst
      rw [harith] at hival hlt ⊢
      rw [ih m' i (n0 + 1) _ (by omega) hibs (by rw [hlen]; exact hival)
        (by rw [hlen]; exact hlt), hlen]

theorem sliceChunks_wf {F : Type} (bs : ℕ) (hbs : 1 ≤ bs) :
    ∀ (c : ℕ) (l : List F), l.length = c * bs →
      (sliceChunks bs l).length = c ∧
        ∀ m, m < c → (sliceChunks bs l).get? m = some ((l.drop (m * bs)).take bs) := by
  intro c
  induction c with
  | zero =>
    intro l hl
    have hnil : l = [] := List.eq_nil_of_length_eq_zero (by omega)
    subst hnil
    exact ⟨rfl, fun m hm => by omega⟩
  | succ c' ih =>
    intro l hl
    have hmul : bs ≤ (c' + 1) * bs := by
      have := Nat.mul_le_mul_right bs (show 1 ≤ c' + 1 by omega)
      omega
    have hlpos : 1 ≤ l.length := by omega
    obtain ⟨x, xs, rfl⟩ : ∃ x xs, l = x :: xs := by
      cases l with
      | nil => simp at hlpos
      | cons x xs => exact ⟨x, xs, rfl⟩
    have heq : sliceChunks bs (x :: xs)
        = (x :: xs).take bs :: sliceChunks bs ((x :: xs).drop bs) := by
      rw [sliceChunks_cons, if_neg (by omega)]
    have hdroplen : ((x :: xs).drop bs).length = c' * bs := by
      rw [List.length_drop]
      have : (c' + 1) * bs = c' * bs + bs := by ring
      omega
    obtain ⟨ihlen, ihget⟩ := ih ((x :: xs).drop bs) hdroplen
    constructor
    · rw [heq, List.length_cons, ihlen]
    · intro m hm
      cases m with
      | zero =>
        rw [heq]
        simp
      | succ m' =>
        rw [heq, List.get?_cons_succ, ihget m' (by omega)]
        rw [List.drop_drop]
        have harith : bs + m' * bs = (m' + 1) * bs := by ring
        rw [harith]

theorem chunk_get {F : Type} (l : List F) (bs m i : ℕ) (hi : i < bs) :
    ((l.drop (m * bs)).take bs).get? i = l.get? (m * bs + i) := by
  rw [List.get?_eq_getElem?, List.get?_eq_getElem?, List.getElem?_take_of_lt hi,
    List.getElem?_drop]

theorem chunk_length {F : Type} (l : List F) (c bs m : ℕ) (hl : l.length = c * bs)
    (hm : m < c) : ((l.drop (m * bs)).take bs).length = bs := by
  rw [List.length_take, List.length_drop, hl]
  have h1 : (m + 1) * bs ≤ c * bs := Nat.mul_le_mul_right bs (by omega)
  have h2 : (m + 1) * bs = m * bs + bs := by ring
  omega

/-- Inversion of a successful Channels → Interleaved conversion: it implies the
`assert_eq` passed and the blocksize was nonzero, and identifies the result. -/
theorem convertFromChannels_inv {F G : Type} (conv : G → F)
    (dst : Buffer F) (src : Buffer G) (out : Buffer F)
    (h : Buffer.convertFromChannels conv dst src = some out) :
    dst.channels = src.channels ∧ 1 ≤ src.blocksize ∧
      out.samples = chToIlLoop conv dst.channels 0 dst.samples
        (sliceChunks src.blocksize src.samples) ∧
      out.channels = dst.channels ∧ out.blocksize = dst.blocksize := by
  unfold Buffer.convertFromChannels at h
  by_cases hbs0 : src.blocksize = 0
  · rw [sliceChunks?, if_pos hbs0] at h
    split at h <;> simp at h
  · rw [sliceChunks?, if_neg hbs0] at h
    simp only at h
    split at h
    · exact absurd h (by simp)
    next hch =>
      split at h
      · exact absurd h (by simp)
      next =>
        simp only [Option.some.injEq] at h
        refine ⟨by omega, by omega, ?_, ?_, ?_⟩ <;> rw [← h]

/-- Inversion of a successful Interleaved → Channels conversion. -/
theorem convertFromInterleaved_inv {F G : Type} (conv : G → F)
    (dst : Buffer F) (src : Buffer G) (out : Buffer F)
    (h : Buffer.convertFromInterleaved conv dst src = some out) :
    dst.channels = src.channels ∧ 1 ≤ dst.blocksize ∧
      out.samples = ilToChLoop conv src.channels dst.blocksize src.samples
        (sliceChunks dst.blocksize dst.samples).length 0 dst.samples ∧
      out.channels = dst.channels ∧ out.blocksize = dst.blocksize := by
  unfold Buffer.convertFromInterleaved at h
  by_cases hbs0 : dst.blocksize = 0
  · rw [sliceChunks?, if_pos hbs0] at h
    split at h <;> simp at h
  · rw [sliceChunks?, if_neg hbs0] at h
    simp only at h
    split at h
    · exact absurd h (by simp)
    next hch =>
      split at h
      · exact absurd h (by simp)
      next =>
        simp only [Option.some.injEq] at h
        refine ⟨by omega, by omega, ?_, ?_, ?_⟩ <;> rw [← h]

/-- A Channels → Interleaved conversion between buffers of equal channel count
with a well-formed source and a nonzero blocksize completes (no panic). -/
theorem convertFromChannels_some {F G : Type} (conv : G → F)
    (dst : Buffer F) (src : Buffer G)
    (hch : dst.channels = src.channels) (hbs : 1 ≤ src.blocksize)
    (hwf : src.samples.length = src.channels * src.blocksize) :
    ∃ out, Buffer.convertFromChannels conv dst src = some out := by
  unfold Buffer.convertFromChannels
  rw [if_neg (by omega)]
  rw [sliceChunks?, if_neg (by omega)]
  simp only
  split
  next hpanic =>
    obtain ⟨hne, hzero⟩ := hpanic
    have hc : src.channels = 0 := by omega
    have hlen : src.samples.length = 0 := by rw [hwf, hc]; ring
    have : src.samples = [] := List.eq_nil_of_length_eq_zero hlen
    rw [this] at hne
    simp [sliceChunks, sliceChunksF] at hne
  next => exact ⟨_, rfl⟩

/-- An Interleaved → Channels conversion between buffers of equal channel count
with a well-formed destination and a nonzero blocksize completes (no panic). -/
theorem convertFromInterleaved_some {F G : Type} (conv : G → F)
    (dst : Buffer F) (src : Buffer G)
    (hch : dst.channels = src.channels) (hbs : 1 ≤ dst.blocksize)
    (hwf : dst.samples.length = dst.channels * dst.blocksize) :
    ∃ out, Buffer.convertFromInterleaved conv dst src = some out := by
  unfold Buffer.convertFromInterleaved
  rw [if_neg (by omega)]
  rw [sliceChunks?, if_neg (by omega)]
  simp only
  split
  next hpanic =>
    obtain ⟨hne, hzero⟩ := hpanic
    have hc : dst.channels = 0 := by omega
    have hlen : dst.samples.length = 0 := by rw [hwf, hc]; ring
    have : dst.samples = [] := List.eq_nil_of_length_eq_zero hlen
    rw [this] at hne
    simp [sliceChunks, sliceChunksF] at hne
  next => exact ⟨_, rfl⟩

/-- Pointwise content of the Channels → Interleaved loop on well-formed
buffers: flat position `i * c + n` of the destination receives channel `n`,
frame `i` of the source. -/
theorem chToIl_get {F G : Type} (conv : G → F) (c bs : ℕ) (hbs : 1 ≤ bs)
    (src : List G) (dstS : List F) (hsrc : src.length = c * bs)
    (hdst : dstS.length = c * bs) (n i : ℕ) (hn : n < c) (hi : i < bs) :
    (chToIlLoop conv c 0 dstS (sliceChunks bs src)).get? (i * c + n)
      = (src.get? (n * bs + i)).map conv := by
  obtain ⟨hlen, hget⟩ := sliceChunks_wf bs hbs c src hsrc
  have hchlen : ((src.drop (n * bs)).take bs).length = bs :=
    chunk_length src c bs n hsrc hn
  have hprod : (i + 1) * c ≤ bs * c := Nat.mul_le_mul_right c (by omega)
  have hprod2 : (i + 1) * c = i * c + c := by ring
  have hcb : c * bs = bs * c := by ring
  have hpos : 0 + n + i * c < dstS.length := by omega
  have hhit := chToIlLoop_get_hit conv c (sliceChunks bs src) 0 n i
    ((src.drop (n * bs)).take bs) dstS (by omega) (by rw [hlen]; omega)
    (hget n hn) (by omega) hpos
  have harith : i * c + n = 0 + n + i * c := by ring
  rw [harith, hhit, chunk_get src bs n i hi]

/-- Pointwise content of the Interleaved → Channels loop on well-formed
buffers: flat position `n * bs + i` of the destination receives channel `n` of
frame `i` of the source. -/
theorem ilToCh_get {F G : Type} (conv : G → F) (c bs : ℕ) (hbs : 1 ≤ bs)
    (src : List G) (dstS : List F) (hsrc : src.length = c * bs)
    (hdst : dstS.length = c * bs) (n i : ℕ) (hn : n < c) (hi : i < bs) :
    (ilToChLoop conv c bs src (sliceChunks bs dstS).length 0 dstS).get? (n * bs + i)
      = (src.get? (i * c + n)).map conv := by
  obtain ⟨hlen, _⟩ := sliceChunks_wf bs hbs c dstS hdst
  have hprodn : (n + 1) * bs ≤ c * bs := Nat.mul_le_mul_right bs (by omega)
  have hprodn2 : (n + 1) * bs = n * bs + bs := by ring
  have h0n : (0 + n) * bs = n * bs := by ring
  have hmin : min bs (dstS.length - (0 + n) * bs) = bs := by
    rw [h0n]
    omega
  have hvals_len :
      (strideRead src c (0 + n) (min bs (dstS.length - (0 + n) * bs))).length = bs := by
    rw [hmin]
    apply strideRead_length
    intro j hj
    have hj1 : (j + 1) * c ≤ bs * c := Nat.mul_le_mul_right c (by omega)
    have hj2 : (j + 1) * c = j * c + c := by ring
    have hcb : c * bs = bs * c := by ring
    omega
  have hhit := ilToChLoop_get_hit conv c bs src (sliceChunks bs dstS).length n i 0 dstS
    (by rw [hlen]; omega) hi (by rw [hvals_len]; omega) (by omega)
  rw [hmin] at hhit
  have hsr := strideRead_get src c bs (0 + n) i hi (by
    have hi1 : (i + 1) * c ≤ bs * c := Nat.mul_le_mul_right c (by omega)
    have hi2 : (i + 1) * c = i * c + c := by ring
    have hcb : c * bs = bs * c := by ring
    omega)
  rw [hsr] at hhit
  have h1 : (0 + n) * bs + i = n * bs + i := by ring
  have h2 : 0 + n + i * c = i * c + n := by ring
  rw [h1, h2] at hhit
  exact hhit

/-! ### C5: layout conversion addressing -/

/-- C5: after a successful Channels → Interleaved `convert_from`, the
destination satisfies `interleaved.frame(i)[n] = convert(channels.channel(n)[i])`
(flat position `i * channels + n`), and the Interleaved → Channels conversion
applies the exact inverse addressing. -/
theorem convert_layout_addressing {F G : Type} (conv : G → F)
    (srcC : Buffer G) (dstI : Buffer F) (outI : Buffer F)
    (srcI : Buffer G) (dstC : Buffer F) (outC : Buffer F)
    (hbI : dstI.blocksize = srcC.blocksize)
    (hwfC : srcC.samples.length = srcC.channels * srcC.blocksize)
    (hwfI : dstI.samples.length = dstI.channels * dstI.blocksize)
    (h1 : Buffer.convertFromChannels conv dstI srcC = some outI)
    (hbC : dstC.blocksize = srcI.blocksize)
    (hwfI2 : srcI.samples.length = srcI.channels * srcI.blocksize)
    (hwfC2 : dstC.samples.length = dstC.channels * dstC.blocksize)
    (h2 : Buffer.convertFromInterleaved conv dstC srcI = some outC) :
    (∀ n i, n < srcC.channels → i < srcC.blocksize →
      outI.samples.get? (i * srcC.channels + n)
        = (srcC.samples.get? (n * srcC.blocksize + i)).map conv) ∧
    (∀ n i, n < srcI.channels → i < srcI.blocksize →
      outC.samples.get? (n * srcI.blocksize + i)
        = (srcI.samples.get? (i * srcI.channels + n)).map conv) := by
  obtain ⟨hch, hbs, hsamp, _, _⟩ := convertFromChannels_inv conv dstI srcC outI h1
  obtain ⟨hch2, hbs2, hsamp2, _, _⟩ := convertFromInterleaved_inv conv dstC srcI outC h2
  constructor
  · intro n i hn hi
    rw [hsamp, hch]
    exact chToIl_get conv srcC.channels srcC.blocksize hbs srcC.samples dstI.samples
      hwfC (by rw [hwfI, hch, hbI]) n i hn hi
  · intro n i hn hi
    rw [hsamp2, hbC]
    exact ilToCh_get conv srcI.channels srcI.blocksize (by omega) srcI.samples
      dstC.samples hwfI2 (by rw [hwfC2, hch2, hbC]) n i hn hi

theorem convert_layout_addressing_witness :
    (∀ n i, n < 2 → i < 2 →
      (⟨[1, 3, 2, 4], 2, 2⟩ : Buffer ℤ).samples.get? (i * 2 + n)
        = ((⟨[1, 2, 3, 4], 2, 2⟩ : Buffer ℤ).samples.get? (n * 2 + i)).map id) ∧
    (∀ n i, n < 2 → i < 2 →
      (⟨[1, 2, 3, 4], 2, 2⟩ : Buffer ℤ).samples.get? (n * 2 + i)
        = ((⟨[1, 3, 2, 4], 2, 2⟩ : Buffer ℤ).samples.get? (i * 2 + n)).map id) :=
  convert_layout_addressing (id : ℤ → ℤ)
    ⟨[1, 2, 3, 4], 2, 2⟩ ⟨[0, 0, 0, 0], 2, 2⟩ ⟨[1, 3, 2, 4], 2, 2⟩
    ⟨[1, 3, 2, 4], 2, 2⟩ ⟨[0, 0, 0, 0], 2, 2⟩ ⟨[1, 2, 3, 4], 2, 2⟩
    (by decide) (by decide) (by decide) (by decide)
    (by decide) (by decide) (by decide) (by decide)

/-! ### C1: Channels → Interleaved → Channels round trip -/

/-- C1 (amended): for buffers of equal channel count, blocksize and sample
type, with a nonzero blocksize, converting a Channels buffer to Interleaved
and back reproduces the original sample values exactly.  (With blocksize zero
both conversions panic in `chunks(0)`, so the round trip never completes.) -/
theorem channels_interleaved_roundtrip {F : Type} (src dstI dstC : Buffer F)
    (hbs : 1 ≤ src.blocksize)
    (hIc : dstI.channels = src.channels) (hIb : dstI.blocksize = src.blocksize)
    (hCc : dstC.channels = src.channels) (hCb : dstC.blocksize = src.blocksize)
    (hwfS : src.samples.length = src.channels * src.blocksize)
    (hwfI : dstI.samples.length = dstI.channels * dstI.blocksize)
    (hwfC : dstC.samples.length = dstC.channels * dstC.blocksize) :
    ∃ mid out, Buffer.convertFromChannels id dstI src = some mid ∧
      Buffer.convertFromInterleaved id dstC mid = some out ∧
      out.samples = src.samples := by
  obtain ⟨mid, hmid⟩ := convertFromChannels_some id dstI src (by omega) hbs hwfS
  obtain ⟨hch, _, hsampM, hchM, hbM⟩ := convertFromChannels_inv id dstI src mid hmid
  have hmidlen : mid.samples.length = src.channels * src.blocksize := by
    rw [hsampM, chToIlLoop_length, hwfI, hIc, hIb]
  obtain ⟨out, hout⟩ := convertFromInterleaved_some id dstC mid
    (by omega) (by omega) (by rw [hwfC, hCc, hCb])
  obtain ⟨hch2, _, hsampO, _, _⟩ := convertFromInterleaved_inv id dstC mid out hout
  refine ⟨mid, out, hmid, hout, ?_⟩
  have hsampM' : mid.samples = chToIlLoop id src.channels 0 dstI.samples
      (sliceChunks src.blocksize src.samples) := by
    rw [hsampM, hch]
  have hsampO' : out.samples = ilToChLoop id src.channels src.blocksize mid.samples
      (sliceChunks src.blocksize dstC.samples).length 0 dstC.samples := by
    rw [hsampO, hchM, hIc, hCb]
  have houtlen : out.samples.length = src.channels * src.blocksize := by
    rw [hsampO', ilToChLoop_length, hwfC, hCc, hCb]
  apply List.ext_get?
  intro q
  by_cases hq : q < src.channels * src.blocksize
  · set c := src.channels with hc_def
    set bs := src.blocksize with hbs_def
    set n := q / bs with hn_def
    set i := q % bs with hi_def
    have hi : i < bs := Nat.mod_lt _ (by omega)
    have hn : n < c := Nat.div_lt_of_lt_mul (by rw [Nat.mul_comm] at hq; exact hq)
    have hq_eq : n * bs + i = q := Nat.div_add_mod' q bs
    have e1 : out.samples.get? (n * bs + i) = (mid.samples.get? (i * c + n)).map id := by
      rw [hsampO']
      exact ilToCh_get id c bs hbs mid.samples dstC.samples hmidlen
        (by rw [hwfC, hCc, hCb]) n i hn hi
    have e2 : mid.samples.get? (i * c + n) = (src.samples.get? (n * bs + i)).map id := by
      rw [hsampM']
      exact chToIl_get id c bs hbs src.samples dstI.samples hwfS
        (by rw [hwfI, hIc, hIb]) n i hn hi
    calc out.samples.get? q = out.samples.get? (n * bs + i) := by rw [hq_eq]
    _ = (mid.samples.get? (i * c + n)).map id := e1
    _ = ((src.samples.get? (n * bs + i)).map id).map id := by rw [e2]
    _ = src.samples.get? (n * bs + i) := by simp
    _ = src.samples.get? q := by rw [hq_eq]
  · rw [List.get?_eq_none.mpr (by omega), List.get?_eq_none.mpr (by omega)]

theorem channels_interleaved_roundtrip_witness :
    ∃ mid out,
      Buffer.convertFromChannels id (⟨[0, 0, 0, 0], 2, 2⟩ : Buffer ℤ)
        ⟨[1, 2, 3, 4], 2, 2⟩ = some mid ∧
      Buffer.convertFromInterleaved id (⟨[0, 0, 0, 0], 2, 2⟩ : Buffer ℤ) mid
        = some out ∧
      out.samples = [1, 2, 3, 4] :=
  channels_interleaved_roundtrip (⟨[1, 2, 3, 4], 2, 2⟩ : Buffer ℤ)
    ⟨[0, 0, 0, 0], 2, 2⟩ ⟨[0, 0, 0, 0], 2, 2⟩
    (by decide) (by decide) (by decide) (by decide) (by decide)
    (by decide) (by decide) (by decide)

/-- C1 counterexample: a Channels buffer with one channel and blocksize zero.
The conversion into an equally-shaped Interleaved buffer panics inside
`chunks(0)` (modelled as `none`), so the round trip does not reproduce
anything: the claim fails without a nonzero-blocksize proviso. -/
theorem channels_interleaved_roundtrip_cex :
    Buffer.convertFromChannels (id : ℤ → ℤ) ⟨[], 1, 0⟩ ⟨[], 1, 0⟩ = none := by
  decide

/-! ### C6: construction length checks -/

/-- C6: wrapping constructors panic exactly when `channels * blocksize`
differs from the storage length, and every successfully constructed buffer
satisfies `total_samples = channels * blocksize`. -/
theorem buffer_construction_invariant {F : Type} [Inhabited F]
    (ch bs : ℕ) (s : List F) :
    ((Buffer.new_ref ch bs s).isSome ↔ ch * bs = s.length) ∧
    ((Buffer.new_mut ch bs s).isSome ↔ ch * bs = s.length) ∧
    ((Buffer.new_from ch bs s).isSome ↔ ch * bs = s.length) ∧
    (∀ b ∈ Buffer.new_ref ch bs s, b.samples.length = b.channels * b.blocksize) ∧
    (∀ b ∈ Buffer.new_mut ch bs s, b.samples.length = b.channels * b.blocksize) ∧
    (∀ b ∈ Buffer.new_from ch bs s, b.samples.length = b.channels * b.blocksize) ∧
    (Buffer.new F ch bs).samples.length
      = (Buffer.new F ch bs).channels * (Buffer.new F ch bs).blocksize ∧
    (Buffer.new_mono F bs).samples.length
      = (Buffer.new_mono F bs).channels * (Buffer.new_mono F bs).blocksize ∧
    (Buffer.mono_ref s).samples.length
      = (Buffer.mono_ref s).channels * (Buffer.mono_ref s).blocksize := by
  refine ⟨?_, ?_, ?_, ?_, ?_, ?_, ?_, ?_, ?_⟩
  · unfold Buffer.new_ref
    split <;> simp_all
  · unfold Buffer.new_mut
    split <;> simp_all
  · unfold Buffer.new_from
    split <;> simp_all
  · intro b hb
    unfold Buffer.new_ref at hb
    split at hb
    next heq =>
      simp only [Option.mem_def, Option.some.injEq] at hb
      subst hb
      simpa using heq.symm
    next => simp at hb
  · intro b hb
    unfold Buffer.new_mut at hb
    split at hb
    next heq =>
      simp only [Option.mem_def, Option.some.injEq] at hb
      subst hb
      simpa using heq.symm
    next => simp at hb
  · intro b hb
    unfold Buffer.new_from at hb
    split at hb
    next heq =>
      simp only [Option.mem_def, Option.some.injEq] at hb
      subst hb
      simpa using heq.symm
    next => simp at hb
  · simp [Buffer.new]
  · simp [Buffer.new_mono]
  · simp [Buffer.mono_ref]

theorem buffer_construction_invariant_witness :
    ((Buffer.new_ref 2 2 ([1, 2, 3, 4] : List ℤ)).isSome ↔ 2 * 2 = 4) ∧
      ((⟨[1, 2, 3, 4], 2, 2⟩ : Buffer ℤ).samples.length
        = (⟨[1, 2, 3, 4], 2, 2⟩ : Buffer ℤ).channels
          * (⟨[1, 2, 3, 4], 2, 2⟩ : Buffer ℤ).blocksize) :=
  ⟨(buffer_construction_invariant 2 2 [1, 2, 3, 4]).1,
    (buffer_construction_invariant 2 2 ([1, 2, 3, 4] : List ℤ)).2.2.2.1
      ⟨[1, 2, 3, 4], 2, 2⟩ (by decide)⟩

/-! ### C9: the inverted emptiness predicate -/

/-- C9: `Frame::is_empty` returns `true` exactly when the frame length is
positive — the opposite of `Mono::is_empty`, which returns `true` exactly when
the sample count is zero. -/
theorem frame_mono_is_empty (F : Type) (f : FrameB F) (m : MonoB F) :
    (FrameB.is_empty f = true ↔ 0 < f.len) ∧
      (MonoB.is_empty m = true ↔ m.len = 0) := by
  constructor
  · simp [FrameB.is_empty, FrameB.len]
  · simp [MonoB.is_empty, MonoB.len, List.isEmpty_iff_length_eq_zero]

/-! ### C7: left() / right() channel accessors -/

/-- C7 (amended): for every well-formed Channels buffer with nonzero
blocksize, `left()` returns `Some` of the channel-0 view iff the buffer has at
least one channel, and `right()` returns `Some` of the channel-1 view iff it
has at least two; otherwise they return `None`.  (With blocksize zero both
accessors panic inside `chunks(0)` instead of returning.) -/
theorem left_right_channel_access {F : Type} (b : Buffer F)
    (hwf : b.samples.length = b.channels * b.blocksize) (hbs : 1 ≤ b.blocksize) :
    ∃ lv rv, b.left = some lv ∧ b.right = some rv ∧
      (lv.isSome ↔ 1 ≤ b.channels) ∧ (rv.isSome ↔ 2 ≤ b.channels) ∧
      (1 ≤ b.channels → lv = some ((b.samples.drop (0 * b.blocksize)).take b.blocksize)) ∧
      (2 ≤ b.channels → rv = some ((b.samples.drop (1 * b.blocksize)).take b.blocksize)) := by
  obtain ⟨hlen, hget⟩ := sliceChunks_wf b.blocksize hbs b.channels b.samples hwf
  refine ⟨(sliceChunks b.blocksize b.samples).get? 0,
    (sliceChunks b.blocksize b.samples).get? 1, ?_, ?_, ?_, ?_, ?_, ?_⟩
  · simp [Buffer.left, Buffer.channelsViews, sliceChunks?,
      if_neg (show ¬b.blocksize = 0 by omega)]
  · simp [Buffer.right, Buffer.channelsViews, sliceChunks?,
      if_neg (show ¬b.blocksize = 0 by omega)]
  · constructor
    · intro h
      by_contra hc
      have hnil : sliceChunks b.blocksize b.samples = [] :=
        List.eq_nil_of_length_eq_zero (by omega)
      rw [hnil] at h
      simp at h
    · intro h
      rw [hget 0 (by omega)]
      rfl
  · constructor
    · intro h
      by_contra hc
      have h1 : (sliceChunks b.blocksize b.samples).get? 1 = none :=
        List.get?_eq_none.mpr (by omega)
      rw [h1] at h
      simp at h
    · intro h
      rw [hget 1 (by omega)]
      rfl
  · intro h
    exact hget 0 (by omega)
  · intro h
    exact hget 1 (by omega)

theorem left_right_channel_access_witness :
    ∃ lv rv, (⟨[1, 2, 3, 4], 2, 2⟩ : Buffer ℤ).left = some lv ∧
      (⟨[1, 2, 3, 4], 2, 2⟩ : Buffer ℤ).right = some rv ∧
      (lv.isSome ↔ 1 ≤ (⟨[1, 2, 3, 4], 2, 2⟩ : Buffer ℤ).channels) ∧
      (rv.isSome ↔ 2 ≤ (⟨[1, 2, 3, 4], 2, 2⟩ : Buffer ℤ).channels) ∧
      (1 ≤ (⟨[1, 2, 3, 4], 2, 2⟩ : Buffer ℤ).channels →
        lv = some ((([1, 2, 3, 4] : List ℤ).drop (0 * 2)).take 2)) ∧
      (2 ≤ (⟨[1, 2, 3, 4], 2, 2⟩ : Buffer ℤ).channels →
        rv = some ((([1, 2, 3, 4] : List ℤ).drop (1 * 2)).take 2)) :=
  left_right_channel_access (⟨[1, 2, 3, 4], 2, 2⟩ : Buffer ℤ) (by decide) (by decide)

/-- C7 counterexample: a Channels buffer with one channel and blocksize zero.
`left()` panics inside `chunks(0)` (modelled `none`) instead of returning
`Some` of channel 0, refuting the "never panics" part of the claim. -/
theorem left_panics_on_zero_blocksize :
    Buffer.left (⟨[], 1, 0⟩ : Buffer ℤ) = none := by
  decide

/-! ### C8: Interleaved::index_lerp panics -/

/-- C8 is false of the code: at a 2-channel, 2-frame buffer and in-range
fractional index 0.5, consuming the iterator panics immediately.  The source
builds `frame1 = &samples[index1 * blocksize..index1 * blocksize]` — an empty
slice — and then indexes `frame1[i]`, an out-of-bounds access (it also strides
by `blocksize` where the interleaved layout requires `channels`).  This
contradicts the method's own documentation ("Returns an iterator over the
partial value for each channel"). -/
theorem index_lerp_interleaved_panics :
    Buffer.indexLerpInterleaved ⟨[1, 2, 3, 4], 2, 2⟩ (1 / 2) = none := by
  unfold Buffer.indexLerpInterleaved partialIdx
  norm_num
  rfl

/-! ### Machinery for the resynthesis engine -/

theorem foldl_preserve {α β : Type} (f : α → β → α) (P : α → Prop)
    (h : ∀ a b, P a → P (f a b)) : ∀ (l : List β) (a : α), P a → P (l.foldl f a) := by
  intro l
  induction l with
  | nil => intro a ha; exact ha
  | cons x xs ih => intro a ha; exact ih _ (h a x ha)

/-- The ring index, tick counter, window length, and output ring of a window
are untouched by the transform block (it only writes the spectra, the input
ring, and — through the inverse FFT — the output ring; the output ring is
written, so it is not listed here). -/
theorem processWindow_fields (env : Env) (w : FftWindow) :
    (processWindow env w).index = w.index ∧
      (processWindow env w).samples = w.samples ∧
      (processWindow env w).length = w.length := by
  unfold processWindow
  apply foldl_preserve _ (fun x : FftWindow =>
    x.index = w.index ∧ x.samples = w.samples ∧ x.length = w.length)
  · intro a b ha
    exact ha
  · have h1 := foldl_preserve
      (fun (w : FftWindow) (ch : ℕ) =>
        let p := env.fft (w.input.getD ch [])
        { w with input := w.input.set ch p.1, input_fft := w.input_fft.set ch p.2 })
      (fun x : FftWindow => x.index = w.index ∧ x.samples = w.samples ∧ x.length = w.length)
      (fun a b ha => ha) (List.range env.I) w ⟨rfl, rfl, rfl⟩
    exact h1

/-- All-zero output rings, phrased as the exact fact `FftWindow::read` needs:
every `getD`-lookup into the output rings yields `0`. -/
def OutZero (w : FftWindow) : Prop :=
  ∀ ch idx : ℕ, (w.output.getD ch []).getD idx 0 = 0

theorem getD_replicate_zero (n idx : ℕ) :
    (List.replicate n (0 : ℚ)).getD idx 0 = 0 := by
  rw [List.getD_eq_getElem?_getD, List.getElem?_replicate]
  split_ifs <;> rfl

theorem outZero_of_output_replicate (w : FftWindow) (chans len : ℕ)
    (h : w.output = List.replicate chans (List.replicate len 0)) : OutZero w := by
  intro ch idx
  rw [h, List.getD_eq_getElem?_getD, List.getD_eq_getElem?_getD,
    List.getElem?_replicate]
  split_ifs
  · simp only [Option.getD_some, List.getElem?_replicate]
    split_ifs <;> rfl
  · rfl

theorem outZero_map_replicate (w : FftWindow) (l : List (List ℚ))
    (h : w.output = l.map fun v => List.replicate v.length 0) : OutZero w := by
  intro ch idx
  rw [h, List.getD_eq_getElem?_getD, List.getD_eq_getElem?_getD,
    List.getElem?_map]
  cases hch : l[ch]? with
  | none => simp only [hch, Option.map_none', Option.getD_none]; rfl
  | some v =>
    simp only [hch, Option.map_some', Option.getD_some, List.getElem?_replicate]
    split_ifs <;> rfl

/-- Reading from all-zero output rings produces a zero frame. -/
theorem read_of_outZero (w : FftWindow) (hz : OutZero w) (v : ℚ) (O : ℕ) :
    w.read v O = List.replicate O 0 := by
  unfold FftWindow.read
  have hlen : ((List.range O).map
      fun ch => (w.output.getD ch []).getD w.index 0 * v).length = O := by
    simp
  conv_rhs => rw [← hlen]
  apply List.eq_replicate_of_mem
  intro b hb
  simp only [List.mem_map] at hb
  obtain ⟨ch, _, rfl⟩ := hb
  rw [hz ch w.index]
  ring

theorem zipWith_add_replicate_zero (O : ℕ) :
    List.zipWith (· + ·) (List.replicate O (0 : ℚ)) (List.replicate O 0)
      = List.replicate O 0 := by
  induction O with
  | zero => rfl
  | succ n ih => simp only [List.replicate_succ, List.zipWith_cons_cons, ih, add_zero]

theorem fftStep_fields (env : Env) (hop : Bool) (w : FftWindow) :
    (fftStep env hop w).index = w.index ∧ (fftStep env hop w).samples = w.samples ∧
      (fftStep env hop w).length = w.length := by
  unfold fftStep
  split_ifs with h
  · exact processWindow_fields env w
  · exact ⟨rfl, rfl, rfl⟩

theorem fftStep_eq_self (env : Env) (hop : Bool) (w : FftWindow)
    (h : w.isFftTime = false) : fftStep env hop w = w := by
  unfold fftStep
  rw [h, Bool.and_false]
  rfl

/-- Structural facts preserved by every engine operation: the window lengths
equal the configured FFT size and the Hann table is the one built at
construction. -/
def WfRes (env : Env) (s : Resynth) : Prop :=
  s.window_length = env.L ∧ s.window_function = hannTable env env.L ∧
    s.window0.length = env.L ∧ s.window1.length = env.L ∧
    s.window2.length = env.L ∧ s.window3.length = env.L

theorem wfRes_new (env : Env) : WfRes env (Resynth.new env) :=
  ⟨rfl, rfl, rfl, rfl, rfl, rfl⟩

theorem wfRes_reset (env : Env) (s : Resynth) (h : WfRes env s) :
    WfRes env (Resynth.reset s) :=
  ⟨h.1, h.2.1, h.2.2.1, h.2.2.2.1, h.2.2.2.2.1, h.2.2.2.2.2⟩

theorem wfRes_tick (env : Env) (s : Resynth) (input : List ℚ)
    (h : WfRes env s) : WfRes env (Resynth.tick env s input).1 := by
  obtain ⟨h1, h2, h3, h4, h5, h6⟩ := h
  exact ⟨h1, h2,
    ((fftStep_fields env _ _).2.2).trans h3,
    ((fftStep_fields env _ _).2.2).trans h4,
    ((fftStep_fields env _ _).2.2).trans h5,
    ((fftStep_fields env _ _).2.2).trans h6⟩

theorem reachable_wf (env : Env) (s : Resynth) (h : Reachable env s) :
    WfRes env s := by
  induction h with
  | init => exact wfRes_new env
  | tick s input _ ih => exact wfRes_tick env s input ih
  | reset s _ ih => exact wfRes_reset env s ih

/-- "Started from its initial or reset state": the state is the construction
state or the reset of a state the instance could actually be in. -/
def startHyp (env : Env) (s0 : Resynth) : Prop :=
  s0 = Resynth.new env ∨ ∃ s, Reachable env s ∧ s0 = Resynth.reset s

theorem startHyp_wf (env : Env) (s0 : Resynth) (h : startHyp env s0) :
    WfRes env s0 := by
  rcases h with rfl | ⟨s, hs, rfl⟩
  · exact wfRes_new env
  · exact wfRes_reset env s (reachable_wf env s hs)

theorem startHyp_counters (env : Env) (s0 : Resynth) (h : startHyp env s0) :
    s0.samples = 0 ∧ s0.window0.samples = 0 ∧ s0.window1.samples = 0 ∧
      s0.window2.samples = 0 ∧ s0.window3.samples = 0 := by
  rcases h with rfl | ⟨s, hs, rfl⟩
  · exact ⟨rfl, rfl, rfl, rfl, rfl⟩
  · exact ⟨rfl, rfl, rfl, rfl, rfl⟩

theorem startHyp_outZero (env : Env) (s0 : Resynth) (h : startHyp env s0) :
    OutZero s0.window0 ∧ OutZero s0.window1 ∧ OutZero s0.window2 ∧
      OutZero s0.window3 := by
  rcases h with rfl | ⟨s, hs, rfl⟩
  · exact ⟨outZero_of_output_replicate _ env.O env.L rfl,
      outZero_of_output_replicate _ env.O env.L rfl,
      outZero_of_output_replicate _ env.O env.L rfl,
      outZero_of_output_replicate _ env.O env.L rfl⟩
  · exact ⟨outZero_map_replicate _ s.window0.output rfl,
      outZero_map_replicate _ s.window1.output rfl,
      outZero_map_replicate _ s.window2.output rfl,
      outZero_map_replicate _ s.window3.output rfl⟩

/-- The staggered start offsets, in units of `L / 4`, for both construction
and reset (they agree because `L` is a power of two at least 4). -/
theorem startHyp_idx (env : Env) (s0 : Resynth) (h : startHyp env s0)
    (k : ℕ) (hk : 2 ≤ k) (hL : env.L = 2 ^ k) :
    s0.window0.index = 0 ∧ s0.window1.index = env.L >>> 2 ∧
      s0.window2.index = 2 * (env.L >>> 2) ∧
      s0.window3.index = 3 * (env.L >>> 2) := by
  have hshift2 : env.L >>> 2 = 2 ^ (k - 2) := by
    rw [Nat.shiftRight_eq_div_pow, hL, Nat.pow_div (by omega) (by norm_num)]
  have hshift1 : env.L >>> 1 = 2 * (env.L >>> 2) := by
    rw [hshift2, Nat.shiftRight_eq_div_pow, hL, Nat.pow_div (by omega) (by norm_num)]
    have hkk : k - 1 = (k - 2) + 1 := by omega
    rw [hkk, pow_succ]
    ring
  rcases h with rfl | ⟨s, hs, rfl⟩
  · refine ⟨rfl, rfl, hshift1, ?_⟩
    show env.L >>> 1 + env.L >>> 2 = 3 * (env.L >>> 2)
    rw [hshift1]
    ring
  · have hwl : s.window_length = env.L := (reachable_wf env s hs).1
    refine ⟨?_, ?_, ?_, ?_⟩
    · show 0 * (s.window_length >>> 2) = 0
      ring
    · show 1 * (s.window_length >>> 2) = env.L >>> 2
      rw [hwl]
      ring
    · show 2 * (s.window_length >>> 2) = 2 * (env.L >>> 2)
      rw [hwl]
    · show 3 * (s.window_length >>> 2) = 3 * (env.L >>> 2)
      rw [hwl]

theorem runFrom_wf (env : Env) (s0 : Resynth) (ins : ℕ → List ℚ)
    (h : WfRes env s0) : ∀ t, WfRes env (runFrom env s0 ins t)
  | 0 => h
  | t + 1 => wfRes_tick env _ _ (runFrom_wf env s0 ins h t)

theorem tick_samples (env : Env) (s : Resynth) (input : List ℚ) :
    (Resynth.tick env s input).1.samples = (s.samples + 1) % 2 ^ 32 := rfl

theorem tick_window_samples (env : Env) (s : Resynth) (input : List ℚ) :
    (Resynth.tick env s input).1.window0.samples = (s.window0.samples + 1) % 2 ^ 32 ∧
      (Resynth.tick env s input).1.window1.samples = (s.window1.samples + 1) % 2 ^ 32 ∧
      (Resynth.tick env s input).1.window2.samples = (s.window2.samples + 1) % 2 ^ 32 ∧
      (Resynth.tick env s input).1.window3.samples = (s.window3.samples + 1) % 2 ^ 32 := by
  refine ⟨?_, ?_, ?_, ?_⟩ <;> exact ((fftStep_fields env _ _).2.1).trans rfl

theorem tick_window_index (env : Env) (s : Resynth) (input : List ℚ) :
    (Resynth.tick env s input).1.window0.index
        = (s.window0.index + 1) &&& (s.window0.length - 1) ∧
      (Resynth.tick env s input).1.window1.index
        = (s.window1.index + 1) &&& (s.window1.length - 1) ∧
      (Resynth.tick env s input).1.window2.index
        = (s.window2.index + 1) &&& (s.window2.length - 1) ∧
      (Resynth.tick env s input).1.window3.index
        = (s.window3.index + 1) &&& (s.window3.length - 1) := by
  refine ⟨?_, ?_, ?_, ?_⟩ <;> exact ((fftStep_fields env _ _).1).trans rfl

theorem runFrom_samples (env : Env) (s0 : Resynth) (ins : ℕ → List ℚ)
    (h0 : s0.samples = 0) (hw0 : s0.window0.samples = 0)
    (hw1 : s0.window1.samples = 0) (hw2 : s0.window2.samples = 0)
    (hw3 : s0.window3.samples = 0) :
    ∀ t, (runFrom env s0 ins t).samples = t % 2 ^ 32 ∧
      (runFrom env s0 ins t).window0.samples = t % 2 ^ 32 ∧
      (runFrom env s0 ins t).window1.samples = t % 2 ^ 32 ∧
      (runFrom env s0 ins t).window2.samples = t % 2 ^ 32 ∧
      (runFrom env s0 ins t).window3.samples = t % 2 ^ 32 := by
  intro t
  induction t with
  | zero =>
    refine ⟨?_, ?_, ?_, ?_, ?_⟩ <;> simp [runFrom, h0, hw0, hw1, hw2, hw3]
  | succ t ih =>
    obtain ⟨hg, h1, h2, h3, h4⟩ := ih
    refine ⟨?_, ?_, ?_, ?_, ?_⟩
    · show (Resynth.tick env (runFrom env s0 ins t) (ins t)).1.samples = _
      rw [tick_samples, hg, Nat.mod_add_mod]
    · show (Resynth.tick env (runFrom env s0 ins t) (ins t)).1.window0.samples = _
      rw [(tick_window_samples env _ _).1, h1, Nat.mod_add_mod]
    · show (Resynth.tick env (runFrom env s0 ins t) (ins t)).1.window1.samples = _
      rw [(tick_window_samples env _ _).2.1, h2, Nat.mod_add_mod]
    · show (Resynth.tick env (runFrom env s0 ins t) (ins t)).1.window2.samples = _
      rw [(tick_window_samples env _ _).2.2.1, h3, Nat.mod_add_mod]
    · show (Resynth.tick env (runFrom env s0 ins t) (ins t)).1.window3.samples = _
      rw [(tick_window_samples env _ _).2.2.2, h4, Nat.mod_add_mod]

theorem runFrom_idx (env : Env) (s0 : Resynth) (ins : ℕ → List ℚ)
    (hwf : WfRes env s0) (k : ℕ) (hL : env.L = 2 ^ k) (i0 i1 i2 i3 : ℕ)
    (hx0 : s0.window0.index = i0) (hx1 : s0.window1.index = i1)
    (hx2 : s0.window2.index = i2) (hx3 : s0.window3.index = i3)
    (hl0 : i0 < env.L) (hl1 : i1 < env.L) (hl2 : i2 < env.L) (hl3 : i3 < env.L) :
    ∀ t, (runFrom env s0 ins t).window0.index = (i0 + t) % env.L ∧
      (runFrom env s0 ins t).window1.index = (i1 + t) % env.L ∧
      (runFrom env s0 ins t).window2.index = (i2 + t) % env.L ∧
      (runFrom env s0 ins t).window3.index = (i3 + t) % env.L := by
  intro t
  induction t with
  | zero =>
    refine ⟨?_, ?_, ?_, ?_⟩ <;>
      simp only [runFrom, hx0, hx1, hx2, hx3, Nat.add_zero] <;>
      rw [Nat.mod_eq_of_lt] <;> omega
  | succ t ih =>
    have hwt := runFrom_wf env s0 ins hwf t
    obtain ⟨e0, e1, e2, e3⟩ := ih
    have step : ∀ (i : ℕ), ((i + t) % env.L + 1) &&& (env.L - 1) = (i + (t + 1)) % env.L := by
      intro i
      rw [hL, Nat.and_pow_two_sub_one_eq_mod, Nat.mod_add_mod]
      have harith : i + t + 1 = i + (t + 1) := by ring
      rw [harith]
    refine ⟨?_, ?_, ?_, ?_⟩
    · show (Resynth.tick env (runFrom env s0 ins t) (ins t)).1.window0.index = _
      rw [(tick_window_index env _ _).1, e0, hwt.2.2.1, step]
    · show (Resynth.tick env (runFrom env s0 ins t) (ins t)).1.window1.index = _
      rw [(tick_window_index env _ _).2.1, e1, hwt.2.2.2.1, step]
    · show (Resynth.tick env (runFrom env s0 ins t) (ins t)).1.window2.index = _
      rw [(tick_window_index env _ _).2.2.1, e2, hwt.2.2.2.2.1, step]
    · show (Resynth.tick env (runFrom env s0 ins t) (ins t)).1.window3.index = _
      rw [(tick_window_index env _ _).2.2.2, e3, hwt.2.2.2.2.2, step]

theorem runFrom_outZero (env : Env) (s0 : Resynth) (ins : ℕ → List ℚ)
    (hwf : WfRes env s0) (h0 : s0.samples = 0) (hw0 : s0.window0.samples = 0)
    (hw1 : s0.window1.samples = 0) (hw2 : s0.window2.samples = 0)
    (hw3 : s0.window3.samples = 0)
    (hz0 : OutZero s0.window0) (hz1 : OutZero s0.window1)
    (hz2 : OutZero s0.window2) (hz3 : OutZero s0.window3)
    (hLmax : env.L ≤ 32768) :
    ∀ t, t < env.L → OutZero (runFrom env s0 ins t).window0 ∧
      OutZero (runFrom env s0 ins t).window1 ∧
      OutZero (runFrom env s0 ins t).window2 ∧
      OutZero (runFrom env s0 ins t).window3 := by
  intro t
  induction t with
  | zero => exact fun _ => ⟨hz0, hz1, hz2, hz3⟩
  | succ t ih =>
    intro ht
    obtain ⟨z0, z1, z2, z3⟩ := ih (by omega)
    have hs := runFrom_samples env s0 ins h0 hw0 hw1 hw2 hw3 t
    have hwt := runFrom_wf env s0 ins hwf t
    have hlt : (t + 1) % 2 ^ 32 < env.L % 2 ^ 32 := by
      rw [Nat.mod_eq_of_lt (show env.L < 2 ^ 32 by omega)]
      have hmle : (t + 1) % 2 ^ 32 ≤ t + 1 := Nat.mod_le _ _
      omega
    have hff : ∀ w : FftWindow, w.length = env.L → w.samples = (t + 1) % 2 ^ 32 →
        w.isFftTime = false := by
      intro w hwl hws
      unfold FftWindow.isFftTime
      rw [hwl, hws]
      have hd : decide (env.L % 2 ^ 32 ≤ (t + 1) % 2 ^ 32) = false :=
        decide_eq_false (by omega)
      rw [hd, Bool.and_false]
    have hfalse : ∀ (acc : List ℚ) (w : FftWindow), w.length = env.L →
        w.samples = t % 2 ^ 32 →
        (tickWindow (runFrom env s0 ins t) env w (ins t) acc).1.isFftTime = false := by
      intro acc w hl hsw
      apply hff
      · exact hl
      · show (w.samples + 1) % 2 ^ 32 = _
        rw [hsw, Nat.mod_add_mod]
    refine ⟨?_, ?_, ?_, ?_⟩
    · show OutZero (fftStep env _ _)
      rw [fftStep_eq_self env _ _ (hfalse _ _ hwt.2.2.1 hs.2.1)]
      exact z0
    · show OutZero (fftStep env _ _)
      rw [fftStep_eq_self env _ _ (hfalse _ _ hwt.2.2.2.1 hs.2.2.1)]
      exact z1
    · show OutZero (fftStep env _ _)
      rw [fftStep_eq_self env _ _ (hfalse _ _ hwt.2.2.2.2.1 hs.2.2.2.1)]
      exact z2
    · show OutZero (fftStep env _ _)
      rw [fftStep_eq_self env _ _ (hfalse _ _ hwt.2.2.2.2.2 hs.2.2.2.2)]
      exact z3

theorem outZero_write (w : FftWindow) (input : List ℚ) (wv : ℚ)
    (hz : OutZero w) : OutZero (w.write input wv) := hz

/-! ### C3: silence during the initial fill -/

/-- C3: from the initial or any reset state, whatever the FFT capability and
the processing closure do, every output frame at sample index strictly below
the window length `L` is all zeros. -/
theorem resynth_silent_during_fill (env : Env) (s0 : Resynth) (ins : ℕ → List ℚ)
    (hstart : startHyp env s0) (_hL4 : 4 ≤ env.L) (_hpow : ∃ k, env.L = 2 ^ k)
    (hLmax : env.L ≤ 32768) (t : ℕ) (ht : t < env.L) :
    outAt env s0 ins t = List.replicate env.O 0 := by
  have hwf := startHyp_wf env s0 hstart
  obtain ⟨h0, hw0, hw1, hw2, hw3⟩ := startHyp_counters env s0 hstart
  obtain ⟨hz0, hz1, hz2, hz3⟩ := startHyp_outZero env s0 hstart
  obtain ⟨z0, z1, z2, z3⟩ :=
    runFrom_outZero env s0 ins hwf h0 hw0 hw1 hw2 hw3 hz0 hz1 hz2 hz3 hLmax t ht
  show (Resynth.tick env (runFrom env s0 ins t) (ins t)).2 = _
  unfold Resynth.tick tickWindow
  simp only
  rw [read_of_outZero _ (outZero_write _ _ _ z0), zipWith_add_replicate_zero,
    read_of_outZero _ (outZero_write _ _ _ z1), zipWith_add_replicate_zero,
    read_of_outZero _ (outZero_write _ _ _ z2), zipWith_add_replicate_zero,
    read_of_outZero _ (outZero_write _ _ _ z3), zipWith_add_replicate_zero]

theorem resynth_silent_during_fill_witness :
    outAt ⟨1, 1, 4, fun _ => 0, 1, fun v => (v, []), fun _ => ([], [9]), fun _ => []⟩
      (Resynth.new ⟨1, 1, 4, fun _ => 0, 1, fun v => (v, []), fun _ => ([], [9]),
        fun _ => []⟩) (fun _ => [1]) 3 = List.replicate 1 0 :=
  resynth_silent_during_fill _ _ _ (Or.inl rfl) (by decide) ⟨2, rfl⟩ (by decide)
    3 (by decide)

theorem isFftTime_iff (w : FftWindow) :
    w.isFftTime = true ↔ (w.index = 0 ∧ w.length % 2 ^ 32 ≤ w.samples) := by
  unfold FftWindow.isFftTime
  simp [Bool.and_eq_true]

theorem isFftTime_false_of_index (w : FftWindow) (h : w.index ≠ 0) :
    w.isFftTime = false := by
  unfold FftWindow.isFftTime
  simp [h]

theorem pow_shifts (L k : ℕ) (hk : 2 ≤ k) (hL : L = 2 ^ k) :
    L >>> 2 = 2 ^ (k - 2) ∧ L = 4 * (L >>> 2) ∧ 1 ≤ L >>> 2 := by
  have h2 : L >>> 2 = 2 ^ (k - 2) := by
    rw [Nat.shiftRight_eq_div_pow, hL, Nat.pow_div (by omega) (by norm_num)]
  refine ⟨h2, ?_, ?_⟩
  · rw [h2, hL]
    have hsplit : (2 : ℕ) ^ k = 2 ^ (k - 2) * 2 ^ 2 := by
      rw [← pow_add]
      congr 1
      omega
    rw [hsplit]
    ring
  · rw [h2]
    exact Nat.one_le_two_pow

/-- The window start offsets after a start state, propagated along a run:
window `j` has ring index `(j * (L / 4) + t) % L` after `t` ticks. -/
theorem runFrom_idx_start (env : Env) (s0 : Resynth) (ins : ℕ → List ℚ)
    (hstart : startHyp env s0) (k : ℕ) (hk : 2 ≤ k) (hL : env.L = 2 ^ k) :
    ∀ t, (runFrom env s0 ins t).window0.index = (0 * (env.L >>> 2) + t) % env.L ∧
      (runFrom env s0 ins t).window1.index = (1 * (env.L >>> 2) + t) % env.L ∧
      (runFrom env s0 ins t).window2.index = (2 * (env.L >>> 2) + t) % env.L ∧
      (runFrom env s0 ins t).window3.index = (3 * (env.L >>> 2) + t) % env.L := by
  obtain ⟨hsh, hfour, hpos⟩ := pow_shifts env.L k hk hL
  obtain ⟨hx0, hx1, hx2, hx3⟩ := startHyp_idx env s0 hstart k hk hL
  have hb : ∀ j : ℕ, j ≤ 3 → j * (env.L >>> 2) < env.L := by
    intro j hj
    have hmul : j * (env.L >>> 2) ≤ 3 * (env.L >>> 2) :=
      Nat.mul_le_mul_right _ hj
    omega
  have := runFrom_idx env s0 ins (startHyp_wf env s0 hstart) k hL
    (0 * (env.L >>> 2)) (1 * (env.L >>> 2)) (2 * (env.L >>> 2)) (3 * (env.L >>> 2))
    (by rw [hx0]; ring) (by rw [hx1]; ring) (by rw [hx2]) (by rw [hx3])
    (hb 0 (by omega)) (hb 1 (by omega)) (hb 2 (by omega)) (hb 3 (by omega))
  exact this

/-- C4: at most one of the four phase-offset windows satisfies `is_fft_time()`
on any tick, and on every hop boundary where the tick runs the transform block
in steady state (all four counters at least `L`), exactly one does. -/
theorem resynth_one_window_per_hop (env : Env) (s0 : Resynth) (ins : ℕ → List ℚ)
    (hstart : startHyp env s0) (hL4 : 4 ≤ env.L) (hpow : ∃ k, env.L = 2 ^ k)
    (hLmax : env.L ≤ 32768) :
    (∀ t, (runFrom env s0 ins t).windows.countP FftWindow.isFftTime ≤ 1) ∧
      (∀ t, env.L ≤ (runFrom env s0 ins (t + 1)).window0.samples →
        env.L ≤ (runFrom env s0 ins (t + 1)).window1.samples →
        env.L ≤ (runFrom env s0 ins (t + 1)).window2.samples →
        env.L ≤ (runFrom env s0 ins (t + 1)).window3.samples →
        (runFrom env s0 ins (t + 1)).samples &&& (((env.L % 2 ^ 32) >>> 2) - 1) = 0 →
        (runFrom env s0 ins (t + 1)).windows.countP FftWindow.isFftTime = 1) := by
  obtain ⟨k, hL⟩ := hpow
  have hk : 2 ≤ k := by
    by_contra hc
    push_neg at hc
    interval_cases k <;> simp_all
  obtain ⟨hsh, hfour, hpos⟩ := pow_shifts env.L k hk hL
  have hidxAll := runFrom_idx_start env s0 ins hstart k hk hL
  obtain ⟨hc0, hcw0, hcw1, hcw2, hcw3⟩ := startHyp_counters env s0 hstart
  have hsamp := runFrom_samples env s0 ins hc0 hcw0 hcw1 hcw2 hcw3
  have hnotdvd : ∀ d : ℕ, 1 ≤ d → d ≤ 3 → ¬env.L ∣ d * (env.L >>> 2) := by
    intro d hd1 hd3 hdvd
    have hdpos : 0 < d * (env.L >>> 2) := by
      have := Nat.mul_le_mul hd1 hpos
      omega
    have hle : env.L ≤ d * (env.L >>> 2) := Nat.le_of_dvd hdpos hdvd
    have hmul : d * (env.L >>> 2) ≤ 3 * (env.L >>> 2) := Nat.mul_le_mul_right _ hd3
    omega
  have hpair : ∀ (t' j j' : ℕ), j < j' → j' ≤ 3 →
      env.L ∣ j * (env.L >>> 2) + t' → env.L ∣ j' * (env.L >>> 2) + t' → False := by
    intro t' j j' hjj hj3 h1 h2
    have hsub := Nat.dvd_sub' h2 h1
    have e1 : (j' - j) * (env.L >>> 2) + j * (env.L >>> 2) = j' * (env.L >>> 2) := by
      rw [← Nat.add_mul, Nat.sub_add_cancel (Nat.le_of_lt hjj)]
    have heq : j' * (env.L >>> 2) + t' - (j * (env.L >>> 2) + t')
        = (j' - j) * (env.L >>> 2) := by omega
    rw [heq] at hsub
    exact hnotdvd (j' - j) (by omega) (by omega) hsub
  have himp : ∀ (w : FftWindow) (j t' : ℕ),
      w.index = (j * (env.L >>> 2) + t') % env.L →
      w.isFftTime = true → env.L ∣ j * (env.L >>> 2) + t' := by
    intro w j t' hwidx hft
    exact Nat.dvd_of_mod_eq_zero (by rw [← hwidx]; exact ((isFftTime_iff w).mp hft).1)
  constructor
  · intro t
    obtain ⟨ix0, ix1, ix2, ix3⟩ := hidxAll t
    cases hb0 : (runFrom env s0 ins t).window0.isFftTime with
    | true =>
      have d0 := himp _ 0 t ix0 hb0
      have f1 : (runFrom env s0 ins t).window1.isFftTime = false := by
        cases hb1 : (runFrom env s0 ins t).window1.isFftTime with
        | false => rfl
        | true => exact absurd (himp _ 1 t ix1 hb1) (fun d1 => hpair t 0 1 (by omega) (by omega) d0 d1)
      have f2 : (runFrom env s0 ins t).window2.isFftTime = false := by
        cases hb2 : (runFrom env s0 ins t).window2.isFftTime with
        | false => rfl
        | true => exact absurd (himp _ 2 t ix2 hb2) (fun d2 => hpair t 0 2 (by omega) (by omega) d0 d2)
      have f3 : (runFrom env s0 ins t).window3.isFftTime = false := by
        cases hb3 : (runFrom env s0 ins t).window3.isFftTime with
        | false => rfl
        | true => exact absurd (himp _ 3 t ix3 hb3) (fun d3 => hpair t 0 3 (by omega) (by omega) d0 d3)
      simp [Resynth.windows, List.countP_cons, List.countP_nil, hb0, f1, f2, f3]
    | false =>
      cases hb1 : (runFrom env s0 ins t).window1.isFftTime with
      | true =>
        have d1 := himp _ 1 t ix1 hb1
        have f2 : (runFrom env s0 ins t).window2.isFftTime = false := by
          cases hb2 : (runFrom env s0 ins t).window2.isFftTime with
          | false => rfl
          | true => exact absurd (himp _ 2 t ix2 hb2) (fun d2 => hpair t 1 2 (by omega) (by omega) d1 d2)
        have f3 : (runFrom env s0 ins t).window3.isFftTime = false := by
          cases hb3 : (runFrom env s0 ins t).window3.isFftTime with
          | false => rfl
          | true => exact absurd (himp _ 3 t ix3 hb3) (fun d3 => hpair t 1 3 (by omega) (by omega) d1 d3)
        simp [Resynth.windows, List.countP_cons, List.countP_nil, hb0, hb1, f2, f3]
      | false =>
        cases hb2 : (runFrom env s0 ins t).window2.isFftTime with
        | true =>
          have d2 := himp _ 2 t ix2 hb2
          have f3 : (runFrom env s0 ins t).window3.isFftTime = false := by
            cases hb3 : (runFrom env s0 ins t).window3.isFftTime with
            | false => rfl
            | true => exact absurd (himp _ 3 t ix3 hb3) (fun d3 => hpair t 2 3 (by omega) (by omega) d2 d3)
          simp [Resynth.windows, List.countP_cons, List.countP_nil, hb0, hb1, hb2, f3]
        | false =>
          cases hb3 : (runFrom env s0 ins t).window3.isFftTime with
          | true =>
            simp [Resynth.windows, List.countP_cons, List.countP_nil, hb0, hb1, hb2, hb3]
          | false =>
            simp [Resynth.windows, List.countP_cons, List.countP_nil, hb0, hb1, hb2, hb3]
  · intro t hs0 hs1 hs2 hs3 hhop
    obtain ⟨ix0, ix1, ix2, ix3⟩ := hidxAll (t + 1)
    obtain ⟨hg, hw0, hw1, hw2, hw3⟩ := hsamp (t + 1)
    have hLlt : env.L < 2 ^ 32 := by omega
    have hLmod : env.L % 2 ^ 32 = env.L := Nat.mod_eq_of_lt hLlt
    have hk32 : k ≤ 32 := by
      by_contra hc
      push_neg at hc
      have : 2 ^ 33 ≤ 2 ^ k := Nat.pow_le_pow_right (by norm_num) (by omega)
      omega
    have hdvd32 : env.L ∣ 2 ^ 32 := by
      rw [hL]
      exact pow_dvd_pow 2 hk32
    set m : ℕ := (t + 1) % 2 ^ 32 with hm
    -- the hop check gives (L/4) ∣ m
    have hhop' : m % (env.L >>> 2) = 0 := by
      rw [hg] at hhop
      rw [hLmod, hsh] at hhop
      rw [Nat.and_pow_two_sub_one_eq_mod] at hhop
      rw [hsh]
      exact hhop
    have hqdef : m = (env.L >>> 2) * (m / (env.L >>> 2)) := by
      rw [Nat.mul_comm]
      exact (Nat.div_mul_cancel (Nat.dvd_of_mod_eq_zero hhop')).symm
    set q : ℕ := m / (env.L >>> 2) with hq
    -- indices in closed form in terms of m
    have hidxm : ∀ j : ℕ, (j * (env.L >>> 2) + (t + 1)) % env.L
        = (env.L >>> 2) * ((j + q) % 4) := by
      intro j
      have e1 : (j * (env.L >>> 2) + (t + 1)) % env.L
          = (j * (env.L >>> 2) + m) % env.L := by
        conv_lhs => rw [Nat.add_mod]
        conv_rhs => rw [Nat.add_mod]
        rw [hm, Nat.mod_mod_of_dvd _ hdvd32]
      have e2 : j * (env.L >>> 2) + m = (env.L >>> 2) * (j + q) := by
        conv_lhs => rw [hqdef]
        ring
      rw [e1, e2, ← Nat.mul_mod_mul_left (env.L >>> 2) (j + q) 4]
      congr 1
      omega
    -- the samples counters are all m and at least L
    have hsteady : env.L % 2 ^ 32 ≤ m := by
      rw [hLmod]
      rw [hw0] at hs0
      exact hs0
    -- decide which window fires from q % 4
    have hfire : ∀ (w : FftWindow) (j : ℕ), w.length = env.L → w.samples = m →
        w.index = (env.L >>> 2) * ((j + q) % 4) → (j + q) % 4 = 0 →
        w.isFftTime = true := by
      intro w j hwl hws hwi hj4
      rw [isFftTime_iff, hwl, hws]
      refine ⟨?_, hsteady⟩
      rw [hwi, hj4]
      ring
    have hquiet : ∀ (w : FftWindow) (j : ℕ),
        w.index = (env.L >>> 2) * ((j + q) % 4) → (j + q) % 4 ≠ 0 →
        w.isFftTime = false := by
      intro w j hwi hj4
      apply isFftTime_false_of_index
      rw [hwi]
      intro hzero
      rcases Nat.mul_eq_zero.mp hzero with hz | hz
      · omega
      · exact hj4 hz
    have hwfr := runFrom_wf env s0 ins (startHyp_wf env s0 hstart) (t + 1)
    have hcase : q % 4 = 0 ∨ q % 4 = 1 ∨ q % 4 = 2 ∨ q % 4 = 3 := by omega
    rcases hcase with hc | hc | hc | hc
    · have b0 := hfire _ 0 hwfr.2.2.1 hw0 (by rw [ix0, hidxm 0]) (by omega)
      have b1 := hquiet _ 1 (by rw [ix1, hidxm 1]) (by omega)
      have b2 := hquiet _ 2 (by rw [ix2, hidxm 2]) (by omega)
      have b3 := hquiet _ 3 (by rw [ix3, hidxm 3]) (by omega)
      simp [Resynth.windows, List.countP_cons, List.countP_nil, b0, b1, b2, b3]
    · have b0 := hquiet _ 0 (by rw [ix0, hidxm 0]) (by omega)
      have b1 := hquiet _ 1 (by rw [ix1, hidxm 1]) (by omega)
      have b2 := hquiet _ 2 (by rw [ix2, hidxm 2]) (by omega)
      have b3 := hfire _ 3 hwfr.2.2.2.2.2 hw3 (by rw [ix3, hidxm 3]) (by omega)
      simp [Resynth.windows, List.countP_cons, List.countP_nil, b0, b1, b2, b3]
    · have b0 := hquiet _ 0 (by rw [ix0, hidxm 0]) (by omega)
      have b1 := hquiet _ 1 (by rw [ix1, hidxm 1]) (by omega)
      have b2 := hfire _ 2 hwfr.2.2.2.2.1 hw2 (by rw [ix2, hidxm 2]) (by omega)
      have b3 := hquiet _ 3 (by rw [ix3, hidxm 3]) (by omega)
      simp [Resynth.windows, List.countP_cons, List.countP_nil, b0, b1, b2, b3]
    · have b0 := hquiet _ 0 (by rw [ix0, hidxm 0]) (by omega)
      have b1 := hfire _ 1 hwfr.2.2.2.1 hw1 (by rw [ix1, hidxm 1]) (by omega)
      have b2 := hquiet _ 2 (by rw [ix2, hidxm 2]) (by omega)
      have b3 := hquiet _ 3 (by rw [ix3, hidxm 3]) (by omega)
      simp [Resynth.windows, List.countP_cons, List.countP_nil, b0, b1, b2, b3]

theorem resynth_one_window_per_hop_witness :
    (runFrom ⟨1, 1, 4, fun _ => 0, 1, fun v => (v, []), fun _ => ([], [9]),
        fun _ => []⟩
      (Resynth.new ⟨1, 1, 4, fun _ => 0, 1, fun v => (v, []), fun _ => ([], [9]),
        fun _ => []⟩) (fun _ => [1]) 4).windows.countP FftWindow.isFftTime = 1 :=
  (resynth_one_window_per_hop
    ⟨1, 1, 4, fun _ => 0, 1, fun v => (v, []), fun _ => ([], [9]), fun _ => []⟩
    (Resynth.new ⟨1, 1, 4, fun _ => 0, 1, fun v => (v, []), fun _ => ([], [9]),
      fun _ => []⟩) (fun _ => [1]) (Or.inl rfl) (by decide) ⟨2, rfl⟩ (by decide)).2
    3 (by decide) (by decide) (by decide) (by decide) (by decide)

/-! ### C10: ring index bounds and the mask/modulus identity -/

/-- C10: `advance` implements `(index + 1) mod length` via the power-of-two
mask, and along any run from the initial or a reset state every window's ring
index stays strictly below `L`, which is exactly the length of the Hann table
`window_function`, so the table lookup in `tick` is always in bounds. -/
theorem resynth_ring_index_invariant (env : Env) (s0 : Resynth) (ins : ℕ → List ℚ)
    (hstart : startHyp env s0) (hL4 : 4 ≤ env.L) (hpow : ∃ k, env.L = 2 ^ k) :
    (∀ (w : FftWindow) (kw : ℕ), w.length = 2 ^ kw →
      w.advance.index = (w.index + 1) % w.length) ∧
      (∀ t, (runFrom env s0 ins t).window0.index < env.L ∧
        (runFrom env s0 ins t).window1.index < env.L ∧
        (runFrom env s0 ins t).window2.index < env.L ∧
        (runFrom env s0 ins t).window3.index < env.L ∧
        (runFrom env s0 ins t).window_function.length = env.L ∧
        (runFrom env s0 ins t).window0.index
          < (runFrom env s0 ins t).window_function.length ∧
        (runFrom env s0 ins t).window1.index
          < (runFrom env s0 ins t).window_function.length ∧
        (runFrom env s0 ins t).window2.index
          < (runFrom env s0 ins t).window_function.length ∧
        (runFrom env s0 ins t).window3.index
          < (runFrom env s0 ins t).window_function.length) := by
  constructor
  · intro w kw hw
    show (w.index + 1) &&& (w.length - 1) = (w.index + 1) % w.length
    rw [hw, Nat.and_pow_two_sub_one_eq_mod]
  · obtain ⟨k, hL⟩ := hpow
    have hk : 2 ≤ k := by
      by_contra hc
      push_neg at hc
      interval_cases k <;> simp_all
    have hidx := runFrom_idx_start env s0 ins hstart k hk hL
    intro t
    obtain ⟨i0, i1, i2, i3⟩ := hidx t
    have hLpos : 0 < env.L := by omega
    have hfun : (runFrom env s0 ins t).window_function.length = env.L := by
      rw [(runFrom_wf env s0 ins (startHyp_wf env s0 hstart) t).2.1]
      unfold hannTable
      rw [List.length_map, List.length_range]
    refine ⟨?_, ?_, ?_, ?_, hfun, ?_, ?_, ?_, ?_⟩
    · rw [i0]; exact Nat.mod_lt _ hLpos
    · rw [i1]; exact Nat.mod_lt _ hLpos
    · rw [i2]; exact Nat.mod_lt _ hLpos
    · rw [i3]; exact Nat.mod_lt _ hLpos
    · rw [hfun, i0]; exact Nat.mod_lt _ hLpos
    · rw [hfun, i1]; exact Nat.mod_lt _ hLpos
    · rw [hfun, i2]; exact Nat.mod_lt _ hLpos
    · rw [hfun, i3]; exact Nat.mod_lt _ hLpos

theorem resynth_ring_index_invariant_witness :
    (runFrom ⟨1, 1, 4, fun _ => 0, 1, fun v => (v, []), fun _ => ([], [9]),
        fun _ => []⟩
      (Resynth.new ⟨1, 1, 4, fun _ => 0, 1, fun v => (v, []), fun _ => ([], [9]),
        fun _ => []⟩) (fun _ => [1]) 5).window0.index < 4 :=
  ((resynth_ring_index_invariant
    ⟨1, 1, 4, fun _ => 0, 1, fun v => (v, []), fun _ => ([], [9]), fun _ => []⟩
    (Resynth.new ⟨1, 1, 4, fun _ => 0, 1, fun v => (v, []), fun _ => ([], [9]),
      fun _ => []⟩) (fun _ => [1]) (Or.inl rfl) (by decide) ⟨2, rfl⟩).2 5).1
